import Mathlib

/-!
Verification of the schedule reconciliation engine of `iptvctl`
(`crontab_manager.py` and the override-timer part of `app.py`).

Python strings are embedded as `List Char` (abbreviated `Str`); the Python
string operations used by the source (`split`, `strip`, `lstrip`, `replace`,
`startswith`, `endswith`, `in`, `join`) are modelled by executable Lean
functions below.  Instants are embedded as seconds on a naive linear
timeline (day 0 starts at second 0 and is a Thursday, i.e. Python
`weekday() = 3`, matching the Unix epoch); this is faithful because the
source only uses naive `datetime` arithmetic (`replace`, `+ timedelta`,
comparison), which is linear time arithmetic, and because every constructed
`run_time` has second = microsecond = 0, so comparisons at whole-second
resolution agree with Python's microsecond resolution.

The crontab store (`crontab -l` / `crontab -`) is modelled by passing the
table text explicitly and returning the written text: a mutating operation
returns `some newText` where the source calls `set_crontab(newText)` and
returns its boolean, and `none` where the source returns `False` before
attempting any write.  Python's per-process string `hash` is modelled by an
arbitrary function parameter `hashF : Str → Nat` (it is a fixed pure
function within one process run); `hash(line) & 0x7FFFFFFF` becomes
`hashF line % 2^31`.
-/

/-- Python strings, embedded as lists of characters. -/
abbrev Str := List Char

/-- The whitespace predicate of Python `str.split()` / `str.strip()`. -/
def isPyWs (c : Char) : Bool :=
  c == ' ' || c == '\t' || c == '\n' || c == '\r' || c == '\x0b' || c == '\x0c'

/-- `isPre p s` holds when `p` is a leading sequence of `s`
(Python `s.startswith(p)` is `isPre p s`). -/
def isPre : Str → Str → Bool
  | [], _ => true
  | _ :: _, [] => false
  | a :: as, b :: bs => a == b && isPre as bs

/-- Python `s.endswith(p)`. -/
def isSuf (pat s : Str) : Bool := isPre pat.reverse s.reverse

/-- Python's substring test `pat in s`. -/
def occursIn (pat : Str) : Str → Bool
  | [] => isPre pat []
  | c :: rest => isPre pat (c :: rest) || occursIn pat rest

/-- `IsSubstr p s`: `p` occurs contiguously inside `s` (the propositional
form of Python's `in` operator on strings). -/
def IsSubstr (p s : Str) : Prop := ∃ a b, s = a ++ p ++ b

/-- Python `s.split(sep)` for a one-character separator `sep`
(returns at least one piece; pieces never contain `sep`). -/
def pySplit (sep : Char) : Str → List Str
  | [] => [[]]
  | c :: rest =>
    if c = sep then [] :: pySplit sep rest
    else
      match pySplit sep rest with
      | [] => [[c]]
      | p :: ps => (c :: p) :: ps

/-- Python `sep.join(xs)`. -/
def pyJoin (sep : Str) : List Str → Str
  | [] => []
  | [x] => x
  | x :: y :: ys => x ++ sep ++ pyJoin sep (y :: ys)

/-- Remove the longest trailing run of characters satisfying `p`. -/
def dropWhileEnd (p : Char → Bool) (s : Str) : Str := (s.reverse.dropWhile p).reverse

/-- Python `s.strip()` (no argument: strips whitespace at both ends). -/
def pyStrip (s : Str) : Str := dropWhileEnd isPyWs (s.dropWhile isPyWs)

/-- Python `s.lstrip('# ')`: removes every leading `'#'` or `' '`. -/
def lstripHS (s : Str) : Str := s.dropWhile (fun c => c == '#' || c == ' ')

/-- Python `s.split()` (no argument): split on runs of whitespace,
dropping empty pieces.  A non-whitespace character extends the first
token of the tail's split when the tail begins with another
non-whitespace character, and opens a fresh token otherwise. -/
def pySplitWs : Str → List Str
  | [] => []
  | c :: rest =>
    if isPyWs c then pySplitWs rest
    else
      match rest with
      | [] => [[c]]
      | d :: _ =>
        if isPyWs d then [c] :: pySplitWs rest
        else
          match pySplitWs rest with
          | [] => [[c]]
          | tok :: toks => (c :: tok) :: toks

/-- The scanner of Python `s.replace(old, new)`, with a fuel parameter so
that the recursion is structural (any fuel ≥ the scanned string's length
gives the same value): at each position, a leftmost occurrence of `old` is
replaced by `new` and the scan resumes after it, else one character is
kept. -/
def replaceAllF (old new : Str) : Nat → Str → Str
  | _, [] => []
  | 0, s => s
  | fuel + 1, c :: rest =>
    if old ≠ [] ∧ isPre old (c :: rest) = true then
      new ++ replaceAllF old new fuel ((c :: rest).drop old.length)
    else
      c :: replaceAllF old new fuel rest

/-- Python `s.replace(old, new)` for nonempty `old`: every leftmost,
non-overlapping occurrence of `old` is replaced by `new`.  (For `old = []`
this is the identity; the source never replaces an empty string.) -/
def replaceAll (old new s : Str) : Str := replaceAllF old new s.length s

/-- The numeric value of a nonempty all-digit string, else `none`. -/
def decDigits? (ds : Str) : Option Nat :=
  if ds ≠ [] ∧ ds.all (fun c => c.isDigit) then
    some (ds.foldl (fun a c => a * 10 + (c.toNat - 48)) 0)
  else none

/-- Python `int(s)` on decimal strings: surrounding whitespace is stripped,
one optional sign is allowed, then decimal digits.  (Python's underscore
digit grouping is not modelled; the source never feeds such strings.) -/
def pyParseInt (s : Str) : Option Int :=
  match pyStrip s with
  | '-' :: ds => (decDigits? ds).map (fun n => -(n : Int))
  | '+' :: ds => (decDigits? ds).map (fun n => (n : Int))
  | ds => (decDigits? ds).map (fun n => (n : Int))

/-- Python `os.path.join(a, b)` for POSIX paths. -/
def pyPathJoin (a b : Str) : Str :=
  if isPre "/".data b then b
  else if a = [] then b
  else if isSuf "/".data a then a ++ b
  else a ++ "/".data ++ b

/-- The lines of a text under Python `str.splitlines()` semantics for the
separator `'\n'`: a final newline terminates the last line rather than
opening an empty one. -/
def tableLines (t : Str) : List Str :=
  let ps := pySplit '\n' t
  if ps.getLast? = some [] then ps.dropLast else ps

/-- Python `range(a, b)` over integers. -/
def intRange (a b : Int) : List Int := (List.range (b - a).toNat).map (fun i => a + (i : Int))

/-- The instant of calendar day `d` at `hour:minute:00` (used to state what
`calculate_next_run` must return). -/
def runAt (hour minute d : Nat) : Nat := d * 86400 + hour * 3600 + minute * 60

/-- Day `d`'s Python weekday lies in the parsed weekday set (day 0 is a
Thursday, Python weekday 3). -/
def wdMatch (weekdays : List Int) (d : Nat) : Prop := (((d + 3) % 7 : Nat) : Int) ∈ weekdays

/-- The candidate instants of the next-run computation per the spec: one of
the 8 calendar days starting at `t`'s day whose weekday matches, at
`hour:minute:00`. -/
def nextRunCandidate (hour minute : Nat) (weekdays : List Int) (t r : Nat) : Prop :=
  ∃ k, k < 8 ∧ wdMatch weekdays (t / 86400 + k) ∧ r = runAt hour minute (t / 86400 + k)

/-! ## The data model and `crontab_manager.py` -/

/-- A parsed schedule record (the dict built by `parse_crontab_line`). -/
structure Schedule where
  id : Nat
  minute : Str
  hour : Str
  day : Str
  month : Str
  weekday : Str
  action : Str
  command : Str
  enabled : Bool
  raw : Str
deriving DecidableEq, Repr

/-- A caller-supplied schedule dict, as accepted by `add_schedule` /
`build_crontab_line` (`command` may be absent, hence `Option`). -/
structure NewSchedule where
  minute : Str
  hour : Str
  day : Str
  month : Str
  weekday : Str
  action : Str
  command : Option Str
  enabled : Bool
deriving DecidableEq, Repr

/-- The `updates` dict passed to `update_schedule`; absent keys fall back
to the defaults the source supplies via `dict.get`. -/
structure Updates where
  minute : Option Str
  hour : Option Str
  day : Option Str
  month : Option Str
  weekday : Option Str
  action : Option Str
  enabled : Option Bool
deriving DecidableEq, Repr

/-- `hash(line) & 0x7FFFFFFF` for the process-fixed string hash `hashF`. -/
def pyId (hashF : Str → Nat) (line : Str) : Nat := hashF line % 2147483648

/-- The marker substring of power-up commands (`'ip link set ens1'`). -/
def markerUp : Str := "ip link set ens1".data

/-- The marker substring of the off-check script (`'check_and_off.sh'`). -/
def markerOffScript : Str := "check_and_off.sh".data

/-- `line.replace('#', '').strip()`, the `clean_line` of
`extract_iptv_schedules`. -/
def pyCleanLine (line : Str) : Str := pyStrip (replaceAll "#".data [] line)

/-- The domain-line test of `extract_iptv_schedules` (lines 60-61):
either marker occurs in the line or in its `clean_line`. -/
def lineRelevant (line : Str) : Bool :=
  occursIn markerUp line || occursIn markerUp (pyCleanLine line) ||
  occursIn markerOffScript line || occursIn markerOffScript (pyCleanLine line)

/-- `parse_crontab_line` (crontab_manager.py lines 69-106). -/
def parse_crontab_line (hashF : Str → Nat) (line : Str) : Option Schedule :=
  let enabled := !(isPre "#".data (pyStrip line))
  let clean_line := pyStrip (lstripHS line)
  let parts := pySplitWs clean_line
  if parts.length < 6 then none
  else
    let command := pyJoin " ".data (parts.drop 5)
    let action := if occursIn "up".data command then "on".data
                  else if occursIn "check_and_off".data command then "off".data
                  else "off".data
    some { id := pyId hashF line,
           minute := parts.getD 0 [], hour := parts.getD 1 [], day := parts.getD 2 [],
           month := parts.getD 3 [], weekday := parts.getD 4 [],
           action := action, command := command, enabled := enabled, raw := line }

/-- `extract_iptv_schedules` (lines 48-66): keep the parseable domain
lines, in table order. -/
def extract_iptv_schedules (hashF : Str → Nat) (content : Str) : List Schedule :=
  (pySplit '\n' content).filterMap (fun rawLine =>
    let line := pyStrip rawLine
    if line = [] then none
    else if lineRelevant line then parse_crontab_line hashF line
    else none)

/-- The default power-up command of `build_crontab_line`. -/
def defaultUpCmd : Str := "/sbin/ip link set ens1 up".data

/-- `build_crontab_line` (lines 114-126).  `scriptDir` stands for
`get_script_dir()`, the directory of the source file, a process constant. -/
def build_crontab_line (scriptDir : Str) (s : NewSchedule) : Str :=
  let command := if s.action = "off".data then pyPathJoin scriptDir "check_and_off.sh".data
                 else s.command.getD defaultUpCmd
  let line := s.minute ++ " ".data ++ s.hour ++ " ".data ++ s.day ++ " ".data ++
              s.month ++ " ".data ++ s.weekday ++ " ".data ++ command
  if !s.enabled then "# ".data ++ line else line

/-- `add_schedule` (lines 153-163). -/
def add_schedule (scriptDir : Str) (sched : NewSchedule) (crontab : Str) : Option Str :=
  let new_line := build_crontab_line scriptDir sched
  let t := if crontab ≠ [] ∧ ¬ isSuf "\n".data crontab = true then crontab ++ "\n".data
           else crontab
  some (t ++ new_line ++ "\n".data)

/-- `delete_schedule` (lines 166-188): locate by id, then drop every
table line that contains the target's `raw` text as a substring. -/
def delete_schedule (hashF : Str → Nat) (crontab : Str) (schedule_id : Nat) : Option Str :=
  match (extract_iptv_schedules hashF crontab).find? (fun s => s.id == schedule_id) with
  | none => none
  | some target =>
    some (pyJoin "\n".data ((pySplit '\n' crontab).filter (fun line => !occursIn target.raw line)))

/-- The on-action command `update_schedule` builds (line 209). -/
def loggerUpCmd : Str :=
  "/sbin/ip link set ens1 up && /usr/bin/logger \"IPTV RESTORED: manual schedule\"".data

/-- `update_schedule` (lines 191-214): delete the old record, then add a
freshly built one; fails without adding when the delete fails. -/
def update_schedule (hashF : Str → Nat) (scriptDir : Str) (crontab : Str)
    (schedule_id : Nat) (u : Updates) : Option Str :=
  match delete_schedule hashF crontab schedule_id with
  | none => none
  | some t2 =>
    let action := u.action.getD "off".data
    let command := if action = "on".data then loggerUpCmd
                   else pyPathJoin scriptDir "check_and_off.sh".data
    add_schedule scriptDir
      { minute := u.minute.getD "0".data, hour := u.hour.getD "0".data,
        day := u.day.getD "*".data, month := u.month.getD "*".data,
        weekday := u.weekday.getD "*".data,
        action := action, command := some command, enabled := u.enabled.getD true } t2

/-- `toggle_schedule` (lines 217-247): locate by id, flip `enabled`,
rewrite the line by adding/removing the leading comment marker, and
`crontab.replace(old_line, new_line)` the whole table text. -/
def toggle_schedule (hashF : Str → Nat) (crontab : Str) (schedule_id : Nat) : Option Str :=
  match (extract_iptv_schedules hashF crontab).find? (fun s => s.id == schedule_id) with
  | none => none
  | some target =>
    let old_line := target.raw
    let new_line :=
      if !target.enabled then
        lstripHS old_line
      else
        if ¬ isPre "#".data (pyStrip old_line) = true then "# ".data ++ old_line else old_line
    some (replaceAll old_line new_line crontab)

/-- `cron_to_python_weekday` (lines 344-351). -/
def cron_to_python_weekday (cron_wd : Int) : Int :=
  if cron_wd = 0 then 6 else cron_wd - 1

/-- The body of `parse_weekday`'s loop for one comma-separated term; a
`none` result stands for the `ValueError` the term would raise
(malformed `split('-')` unpacking or a failing `int()`). -/
def parseWeekdayPart (part : Str) : Option (List Int) :=
  if occursIn "-".data part then
    match pySplit '-' part with
    | [st, en] =>
      match pyParseInt st, pyParseInt en with
      | some a, some b => some ((intRange a (b + 1)).map cron_to_python_weekday)
      | _, _ => none
    | _ => none
  else
    (pyParseInt part).map (fun n => [cron_to_python_weekday n])

/-- `parse_weekday` (lines 321-341); a `none` result stands for a raised
exception (caught by `calculate_next_run`). -/
def parse_weekday (weekday_str : Str) : Option (List Int) :=
  if weekday_str = "*".data then some [0, 1, 2, 3, 4, 5, 6]
  else ((pySplit ',' weekday_str).mapM parseWeekdayPart).map List.flatten

/-- Python `datetime.weekday()` of the day containing second `t`
(day 0 is a Thursday, weekday 3). -/
def pyWeekday (t : Nat) : Nat := (t / 86400 + 3) % 7

/-- The day-walking loop of `calculate_next_run` (lines 306-314), with the
iteration count as fuel (the source uses `range(8)`).  `checkTime` carries
the current `check_time`; the candidate `run_time` is `check_time` with
hour/minute replaced (seconds are already 0 after truncation). -/
def nextRunLoop (hour minute : Nat) (weekdays : List Int) (fromTime : Nat) :
    Nat → Nat → Option Nat
  | _, 0 => none
  | checkTime, fuel + 1 =>
    if ((pyWeekday checkTime : Int) ∈ weekdays) then
      let runTime := checkTime / 86400 * 86400 + hour * 3600 + minute * 60
      if fromTime < runTime then some runTime
      else nextRunLoop hour minute weekdays fromTime (checkTime + 86400) fuel
    else nextRunLoop hour minute weekdays fromTime (checkTime + 86400) fuel

/-- `calculate_next_run` (lines 294-318).  The range check on hour/minute
is the validation `datetime.replace` performs; an out-of-range value makes
the source return `None` either via the caught `ValueError` (when some day
matches) or by exhausting the loop (when none does), so hoisting the check
is extensionally faithful. -/
def calculate_next_run (s : Schedule) (fromTime : Nat) : Option Nat :=
  match pyParseInt s.hour, pyParseInt s.minute, parse_weekday s.weekday with
  | some hour, some minute, some weekdays =>
    if 0 ≤ hour ∧ hour ≤ 23 ∧ 0 ≤ minute ∧ minute ≤ 59 then
      nextRunLoop hour.toNat minute.toNat weekdays fromTime (fromTime - fromTime % 60) 8
    else none
  | _, _, _ => none

/-- Comparison of sort keys in `get_all_schedules`: a `none` next-run
stands for the `datetime.max` sentinel and sorts after every computed
run time (a computed `run_time` always has second 0 and so is never
equal to `datetime.max`). -/
def optLe : Option Nat → Option Nat → Bool
  | _, none => true
  | none, some _ => false
  | some a, some b => a ≤ b

/-- Insert into a sorted list, before the first element not strictly
smaller — the insertion step of a stable sort. -/
def insOrd (le : Schedule → Schedule → Bool) (x : Schedule) : List Schedule → List Schedule
  | [] => [x]
  | y :: ys => if le x y then x :: y :: ys else y :: insOrd le x ys

/-- A stable ascending sort (insertion sort).  Python's `list.sort` is
also stable, and a stable sort's output is uniquely determined by the
comparison and the input order, so this models `schedules.sort(key=...)`
exactly. -/
def stableSort (le : Schedule → Schedule → Bool) : List Schedule → List Schedule
  | [] => []
  | x :: xs => insOrd le x (stableSort le xs)

/-- The key comparison of `get_all_schedules.sort_key`. -/
def sortKeyLe (now : Nat) (a b : Schedule) : Bool :=
  optLe (calculate_next_run a now) (calculate_next_run b now)

/-- `get_all_schedules` (lines 129-150), with the crontab text and the
clock instant passed explicitly. -/
def get_all_schedules (hashF : Str → Nat) (crontab : Str) (now : Nat) : List Schedule :=
  stableSort (sortKeyLe now) (extract_iptv_schedules hashF crontab)

/-- `should_skip_crontab_off` as defined in `app.py` (lines 214-225):
the module-global `timer_end_time` and `time.time()` are passed
explicitly. -/
def app_should_skip_crontab_off (timer_end_time : Option Int) (now : Int) : Bool :=
  match timer_end_time with
  | some t => if 0 < t - now then true else false
  | none => false

/-- `should_skip_crontab_off` as defined in `crontab_manager.py`
(lines 354-365).  That module imports `datetime` but never `time`, so as
soon as `timer_end_time` is not `None` the expression `time.time()`
raises `NameError`; `Except.error ()` models that raised exception. -/
def cm_should_skip_crontab_off (timer_end_time : Option Int) (_now : Int) : Except Unit Bool :=
  match timer_end_time with
  | some _ => Except.error ()
  | none => Except.ok false

/-- A concrete process hash used to instantiate `hashF` in closed
witnesses and counterexamples (any fixed pure function is a legitimate
instance of Python's per-process string hash). -/
def demoHash (s : Str) : Nat := s.foldl (fun a c => (a * 31 + c.toNat) % 2147483648) 7

/-- The table's lines that are not domain lines, in order (a domain line
is one whose stripped text passes the `lineRelevant` test of
`extract_iptv_schedules`); the frame that claim C8 says every mutating
operation preserves. -/
def nonDomainLines (t : Str) : List Str :=
  (tableLines t).filter (fun l => !(lineRelevant (pyStrip l)))

/-- The table's non-blank non-domain lines, in order. -/
def nonBlankNonDomainLines (t : Str) : List Str :=
  (tableLines t).filter (fun l => !(l.isEmpty) && !(lineRelevant (pyStrip l)))

/-! ## Lemmas: prefix and substring tests -/

theorem isPre_iff {p s : Str} : isPre p s = true ↔ ∃ t, s = p ++ t := by
  induction p generalizing s with
  | nil => simp [isPre]
  | cons a as ih =>
    cases s with
    | nil => simp [isPre]
    | cons b bs =>
      simp only [isPre, Bool.and_eq_true, beq_iff_eq, List.cons_append]
      constructor
      · rintro ⟨rfl, h⟩
        obtain ⟨t, rfl⟩ := ih.1 h
        exact ⟨t, rfl⟩
      · rintro ⟨t, h⟩
        obtain ⟨rfl, rfl⟩ := List.cons.inj h
        exact ⟨rfl, ih.2 ⟨t, rfl⟩⟩

theorem isPre_refl (p : Str) : isPre p p = true := isPre_iff.2 ⟨[], by simp⟩

theorem isPre_append_right {a b : Str} (t : Str) (h : isPre a b = true) :
    isPre a (b ++ t) = true := by
  obtain ⟨u, rfl⟩ := isPre_iff.1 h
  exact isPre_iff.2 ⟨u ++ t, by simp⟩

theorem occursIn_iff {p s : Str} : occursIn p s = true ↔ IsSubstr p s := by
  induction s with
  | nil =>
    simp only [occursIn, isPre_iff, IsSubstr]
    constructor
    · rintro ⟨t, ht⟩
      obtain ⟨rfl, rfl⟩ := List.append_eq_nil.1 ht.symm
      exact ⟨[], [], rfl⟩
    · rintro ⟨a, b, h⟩
      obtain ⟨ha, hb⟩ := List.append_eq_nil.1 h.symm
      obtain ⟨ha2, hp⟩ := List.append_eq_nil.1 ha
      exact ⟨[], by simp [hp]⟩
  | cons c rest ih =>
    simp only [occursIn, Bool.or_eq_true, isPre_iff, ih, IsSubstr]
    constructor
    · rintro (⟨t, ht⟩ | ⟨a, b, rfl⟩)
      · exact ⟨[], t, by simp [ht]⟩
      · exact ⟨c :: a, b, rfl⟩
    · rintro ⟨a, b, h⟩
      cases a with
      | nil => exact Or.inl ⟨b, by simpa using h⟩
      | cons a0 as =>
        right
        obtain ⟨rfl, h2⟩ := List.cons.inj h
        exact ⟨as, b, h2⟩

theorem IsSubstr.refl (s : Str) : IsSubstr s s := ⟨[], [], by simp⟩

theorem IsSubstr.nil (s : Str) : IsSubstr [] s := ⟨s, [], by simp⟩

theorem IsSubstr.trans {p q s : Str} (h1 : IsSubstr p q) (h2 : IsSubstr q s) :
    IsSubstr p s := by
  obtain ⟨a, b, rfl⟩ := h1
  obtain ⟨c, d, rfl⟩ := h2
  exact ⟨c ++ a, b ++ d, by simp⟩

theorem IsSubstr.extend {p s : Str} (a b : Str) (h : IsSubstr p s) :
    IsSubstr p (a ++ s ++ b) := h.trans ⟨a, b, rfl⟩

theorem IsSubstr.of_eq_nil {p : Str} (h : IsSubstr p []) : p = [] := by
  obtain ⟨a, b, hab⟩ := h
  obtain ⟨ha, -⟩ := List.append_eq_nil.1 hab.symm
  exact (List.append_eq_nil.1 ha).2

theorem IsSubstr.ne_nil_of {p s : Str} (h : IsSubstr p s) (hp : p ≠ []) : s ≠ [] := by
  rintro rfl
  exact hp h.of_eq_nil

theorem IsSubstr.mem {p s : Str} (h : IsSubstr p s) {c : Char} (hc : c ∈ p) : c ∈ s := by
  obtain ⟨a, b, rfl⟩ := h
  simp [hc]

theorem IsSubstr.cons_elim {p : Str} {c : Char} {rest : Str} (h : IsSubstr p (c :: rest)) :
    (∃ t, c :: rest = p ++ t) ∨ IsSubstr p rest := by
  obtain ⟨a, b, hab⟩ := h
  cases a with
  | nil => exact Or.inl ⟨b, by simpa using hab⟩
  | cons a0 as =>
    obtain ⟨rfl, h2⟩ := List.cons.inj hab
    exact Or.inr ⟨as, b, h2⟩

theorem IsSubstr.reverse {p s : Str} (h : IsSubstr p s) : IsSubstr p.reverse s.reverse := by
  obtain ⟨a, b, rfl⟩ := h
  exact ⟨b.reverse, a.reverse, by simp⟩

/-! ## Lemmas: splitting and joining -/

theorem pySplit_ne_nil (sep : Char) (s : Str) : pySplit sep s ≠ [] := by
  cases s with
  | nil => simp [pySplit]
  | cons c rest =>
    by_cases h : c = sep
    · simp [pySplit, h]
    · simp only [pySplit, if_neg h]
      cases pySplit sep rest <;> simp

theorem pySplit_cons_sep (sep : Char) (rest : Str) :
    pySplit sep (sep :: rest) = [] :: pySplit sep rest := by
  simp [pySplit]

theorem pySplit_cons_of_ne {sep c : Char} (h : c ≠ sep) {rest p : Str} {ps : List Str}
    (hsp : pySplit sep rest = p :: ps) : pySplit sep (c :: rest) = (c :: p) :: ps := by
  simp [pySplit, if_neg h, hsp]

theorem pySplit_append_sep (sep : Char) (a b : Str) :
    pySplit sep (a ++ sep :: b) = pySplit sep a ++ pySplit sep b := by
  induction a with
  | nil => simp [pySplit]
  | cons c as ih =>
    by_cases h : c = sep
    · subst h
      rw [List.cons_append, pySplit_cons_sep, pySplit_cons_sep, ih, List.cons_append]
    · have h1 := pySplit_ne_nil sep as
      cases hsp : pySplit sep as with
      | nil => exact absurd hsp h1
      | cons p ps =>
        have hib : pySplit sep (as ++ sep :: b) = p :: (ps ++ pySplit sep b) := by
          rw [ih, hsp, List.cons_append]
        rw [List.cons_append, pySplit_cons_of_ne h hib, pySplit_cons_of_ne h hsp,
          List.cons_append]

theorem pySplit_no_sep {sep : Char} {a : Str} (h : sep ∉ a) : pySplit sep a = [a] := by
  induction a with
  | nil => rfl
  | cons c as ih =>
    simp only [List.mem_cons, not_or] at h
    simp [pySplit, Ne.symm h.1, ih h.2]

theorem pySplit_head_append {sep : Char} {a : Str} (h : sep ∉ a) (x : Str) :
    pySplit sep (a ++ x) = (pySplit sep x).modifyHead (a ++ ·) := by
  induction a with
  | nil =>
    have := pySplit_ne_nil sep x
    cases hx : pySplit sep x with
    | nil => exact absurd hx this
    | cons p ps => simp [hx]
  | cons c as ih =>
    simp only [List.mem_cons, not_or] at h
    have := pySplit_ne_nil sep x
    cases hx : pySplit sep x with
    | nil => exact absurd hx this
    | cons p ps =>
      have hih : pySplit sep (as ++ x) = (as ++ p) :: ps := by
        rw [ih h.2, hx, List.modifyHead]
      rw [List.cons_append, pySplit_cons_of_ne (Ne.symm h.1) hih]
      simp

theorem mem_pySplit_not_sep {sep : Char} {s p : Str} (hp : p ∈ pySplit sep s) : sep ∉ p := by
  induction s generalizing p with
  | nil =>
    simp only [pySplit, List.mem_singleton] at hp
    simp [hp]
  | cons c rest ih =>
    by_cases h : c = sep
    · simp only [pySplit, if_pos h, List.mem_cons] at hp
      rcases hp with rfl | hp
      · simp
      · exact ih hp
    · simp only [pySplit, if_neg h] at hp
      cases hsp : pySplit sep rest with
      | nil => exact absurd hsp (pySplit_ne_nil sep rest)
      | cons q qs =>
        rw [hsp] at hp
        simp only [List.mem_cons] at hp
        rcases hp with rfl | hp
        · have : sep ∉ q := ih (hsp ▸ List.mem_cons_self q qs)
          simp only [List.mem_cons, not_or]
          exact ⟨Ne.symm h, this⟩
        · exact ih (hsp ▸ List.mem_cons_of_mem q hp)

theorem pySplit_head_pre {sep : Char} {s p : Str} {ps : List Str}
    (h : pySplit sep s = p :: ps) : ∃ r, s = p ++ r := by
  induction s generalizing p ps with
  | nil =>
    simp only [pySplit, List.cons.injEq] at h
    exact ⟨[], by simp [← h.1]⟩
  | cons c rest ih =>
    by_cases hc : c = sep
    · simp only [pySplit, if_pos hc, List.cons.injEq] at h
      exact ⟨c :: rest, by simp [← h.1]⟩
    · simp only [pySplit, if_neg hc] at h
      cases hsp : pySplit sep rest with
      | nil => exact absurd hsp (pySplit_ne_nil sep rest)
      | cons q qs =>
        rw [hsp] at h
        obtain ⟨h1, -⟩ := List.cons.inj h
        obtain ⟨r, hr⟩ := ih hsp
        exact ⟨r, by simp [← h1, hr]⟩

theorem pyJoin_pySplit (sep : Char) (s : Str) : pyJoin [sep] (pySplit sep s) = s := by
  induction s with
  | nil => rfl
  | cons c rest ih =>
    by_cases h : c = sep
    · subst h
      simp only [pySplit, if_pos rfl]
      cases hsp : pySplit c rest with
      | nil => exact absurd hsp (pySplit_ne_nil c rest)
      | cons p ps =>
        rw [hsp] at ih
        simp [pyJoin, ← ih]
    · simp only [pySplit, if_neg h]
      cases hsp : pySplit sep rest with
      | nil => exact absurd hsp (pySplit_ne_nil sep rest)
      | cons p ps =>
        rw [hsp] at ih
        cases ps with
        | nil => simpa [pyJoin] using congrArg (c :: ·) ih
        | cons q qs => simpa [pyJoin] using congrArg (c :: ·) ih

theorem pySplit_pyJoin {sep : Char} {ls : List Str} (hne : ls ≠ [])
    (h : ∀ p ∈ ls, sep ∉ p) : pySplit sep (pyJoin [sep] ls) = ls := by
  induction ls with
  | nil => exact absurd rfl hne
  | cons x xs ih =>
    cases xs with
    | nil => exact pySplit_no_sep (h x (List.mem_singleton.2 rfl))
    | cons y ys =>
      have hx : sep ∉ x := h x (List.mem_cons_self x _)
      have : pyJoin [sep] (x :: y :: ys) = x ++ sep :: pyJoin [sep] (y :: ys) := by
        simp [pyJoin]
      rw [this, pySplit_append_sep, pySplit_no_sep hx,
        ih (by simp) (fun p hp => h p (List.mem_cons_of_mem x hp))]
      rfl

theorem pyJoin_append_single (sep : Str) {ls : List Str} (hne : ls ≠ []) (x : Str) :
    pyJoin sep (ls ++ [x]) = pyJoin sep ls ++ sep ++ x := by
  induction ls with
  | nil => exact absurd rfl hne
  | cons a as ih =>
    cases as with
    | nil => simp [pyJoin]
    | cons b bs =>
      have : pyJoin sep ((a :: b :: bs) ++ [x]) = a ++ sep ++ pyJoin sep ((b :: bs) ++ [x]) := by
        simp [pyJoin]
      rw [this, ih (by simp)]
      simp [pyJoin]

/-! ## Lemmas: stripping -/

theorem str_data_hash : "#".data = ['#'] := rfl

theorem str_data_hash_space : "# ".data = ['#', ' '] := rfl

theorem str_data_nl : "\n".data = ['\n'] := rfl

theorem str_data_space : " ".data = [' '] := rfl

theorem dropWhile_head_false (p : Char → Bool) (s : Str) :
    ∀ c, (s.dropWhile p).head? = some c → p c = false := by
  induction s with
  | nil => intro c h; simp [List.dropWhile] at h
  | cons a as ih =>
    intro c h
    by_cases hp : p a
    · rw [List.dropWhile_cons, if_pos hp] at h
      exact ih c h
    · rw [List.dropWhile_cons, if_neg hp] at h
      obtain rfl : a = c := by simpa using h
      simpa using hp

theorem dropWhile_eq_self_of_head {p : Char → Bool} {s : Str}
    (h : ∀ c, s.head? = some c → p c = false) : s.dropWhile p = s := by
  cases s with
  | nil => rfl
  | cons a as =>
    rw [List.dropWhile_cons, if_neg]
    simpa using h a rfl

theorem dropWhile_append_of_all {p : Char → Bool} {a : Str} (x : Str)
    (h : ∀ c ∈ a, p c = true) : (a ++ x).dropWhile p = x.dropWhile p := by
  induction a with
  | nil => rfl
  | cons c as ih =>
    rw [List.cons_append, List.dropWhile_cons, if_pos (h c (List.mem_cons_self c as))]
    exact ih (fun d hd => h d (List.mem_cons_of_mem c hd))

theorem dropWhile_decomp (p : Char → Bool) (s : Str) :
    ∃ a, s = a ++ s.dropWhile p ∧ ∀ c ∈ a, p c = true := by
  refine ⟨s.takeWhile p, ?_, fun c hc => List.mem_takeWhile_imp hc⟩
  exact (List.takeWhile_append_dropWhile p s).symm

theorem dropWhileEnd_last_false (p : Char → Bool) (s : Str) :
    ∀ c, (dropWhileEnd p s).getLast? = some c → p c = false := by
  intro c h
  rw [dropWhileEnd, List.getLast?_reverse] at h
  exact dropWhile_head_false p s.reverse c h

theorem dropWhileEnd_eq_self_of_last {p : Char → Bool} {s : Str}
    (h : ∀ c, s.getLast? = some c → p c = false) : dropWhileEnd p s = s := by
  rw [dropWhileEnd, dropWhile_eq_self_of_head, List.reverse_reverse]
  intro c hc
  exact h c (by rwa [List.head?_reverse] at hc)

theorem dropWhileEnd_append_of_all {p : Char → Bool} {b : Str} (x : Str)
    (h : ∀ c ∈ b, p c = true) : dropWhileEnd p (x ++ b) = dropWhileEnd p x := by
  rw [dropWhileEnd, dropWhileEnd, List.reverse_append, dropWhile_append_of_all]
  intro c hc
  exact h c (List.mem_reverse.1 hc)

theorem dropWhileEnd_decomp (p : Char → Bool) (s : Str) :
    ∃ b, s = dropWhileEnd p s ++ b ∧ ∀ c ∈ b, p c = true := by
  obtain ⟨a, ha, hall⟩ := dropWhile_decomp p s.reverse
  refine ⟨a.reverse, ?_, fun c hc => hall c (List.mem_reverse.1 hc)⟩
  rw [dropWhileEnd]
  calc s = s.reverse.reverse := (List.reverse_reverse s).symm
    _ = (a ++ s.reverse.dropWhile p).reverse := by rw [← ha]
    _ = (s.reverse.dropWhile p).reverse ++ a.reverse := by rw [List.reverse_append]

theorem dropWhileEnd_head? {p : Char → Bool} {s : Str} (h : dropWhileEnd p s ≠ []) :
    (dropWhileEnd p s).head? = s.head? := by
  obtain ⟨b, hb, -⟩ := dropWhileEnd_decomp p s
  conv_rhs => rw [hb]
  exact (List.head?_append_of_ne_nil _ h).symm

theorem pyStrip_head (s : Str) : ∀ c, (pyStrip s).head? = some c → isPyWs c = false := by
  intro c h
  rw [pyStrip] at h
  by_cases hne : dropWhileEnd isPyWs (s.dropWhile isPyWs) = []
  · rw [hne] at h; simp at h
  · rw [dropWhileEnd_head? hne] at h
    exact dropWhile_head_false isPyWs s c h

theorem pyStrip_last (s : Str) : ∀ c, (pyStrip s).getLast? = some c → isPyWs c = false :=
  fun c h => dropWhileEnd_last_false isPyWs (s.dropWhile isPyWs) c h

theorem pyStrip_eq_self {s : Str} (h1 : ∀ c, s.head? = some c → isPyWs c = false)
    (h2 : ∀ c, s.getLast? = some c → isPyWs c = false) : pyStrip s = s := by
  rw [pyStrip, dropWhile_eq_self_of_head h1, dropWhileEnd_eq_self_of_last h2]

theorem pyStrip_idem (s : Str) : pyStrip (pyStrip s) = pyStrip s :=
  pyStrip_eq_self (pyStrip_head s) (pyStrip_last s)

theorem pyStrip_decomp (s : Str) :
    ∃ a b, s = a ++ pyStrip s ++ b ∧ (∀ c ∈ a, isPyWs c = true) ∧ ∀ c ∈ b, isPyWs c = true := by
  obtain ⟨a, ha, hall⟩ := dropWhile_decomp isPyWs s
  obtain ⟨b, hb, hball⟩ := dropWhileEnd_decomp isPyWs (s.dropWhile isPyWs)
  exact ⟨a, b, by rw [pyStrip, List.append_assoc, ← hb, ← ha], hall, hball⟩

theorem pyStrip_substr (s : Str) : IsSubstr (pyStrip s) s := by
  obtain ⟨a, b, h, -, -⟩ := pyStrip_decomp s
  exact ⟨a, b, h⟩

theorem pyStrip_ws_left {a : Str} (s : Str) (h : ∀ c ∈ a, isPyWs c = true) :
    pyStrip (a ++ s) = pyStrip s := by
  rw [pyStrip, pyStrip, dropWhile_append_of_all s h]

theorem pyStrip_ws_right {b : Str} (s : Str) (h : ∀ c ∈ b, isPyWs c = true) :
    pyStrip (s ++ b) = pyStrip s := by
  by_cases hd : s.dropWhile isPyWs = []
  · have hall : ∀ c ∈ s, isPyWs c = true := by
      intro c hc
      exact List.dropWhile_eq_nil_iff.1 hd c hc
    have h1 : pyStrip s = [] := by rw [pyStrip, hd]; rfl
    have h2 : (s ++ b).dropWhile isPyWs = b.dropWhile isPyWs := dropWhile_append_of_all b hall
    have h3 : b.dropWhile isPyWs = [] := List.dropWhile_eq_nil_iff.2 h
    rw [pyStrip, h2, h3, h1]; rfl
  · obtain ⟨a, ha, hall⟩ := dropWhile_decomp isPyWs s
    have h2 : (s ++ b).dropWhile isPyWs = s.dropWhile isPyWs ++ b := by
      conv_lhs => rw [ha]
      rw [List.append_assoc, dropWhile_append_of_all _ hall]
      apply dropWhile_eq_self_of_head
      intro c hc
      have h4 : (s.dropWhile isPyWs ++ b).head? = (s.dropWhile isPyWs).head? :=
        List.head?_append_of_ne_nil _ hd
      rw [h4] at hc
      exact dropWhile_head_false isPyWs s c hc
    rw [pyStrip, pyStrip, h2, dropWhileEnd_append_of_all _ h]

theorem pyStrip_sandwich {a b : Str} (s : Str) (ha : ∀ c ∈ a, isPyWs c = true)
    (hb : ∀ c ∈ b, isPyWs c = true) : pyStrip (a ++ s ++ b) = pyStrip s := by
  rw [List.append_assoc, pyStrip_ws_left _ ha, pyStrip_ws_right _ hb]

theorem substr_dropWhile {q : Char → Bool} {p s : Str} (h : IsSubstr p s)
    (hh : ∀ c, p.head? = some c → q c = false) : IsSubstr p (s.dropWhile q) := by
  obtain ⟨a, b, rfl⟩ := h
  cases p with
  | nil => exact IsSubstr.nil _
  | cons h0 t =>
    have hq0 : q h0 = false := hh h0 rfl
    induction a with
    | nil =>
      simp only [List.nil_append, List.cons_append]
      rw [List.dropWhile_cons, if_neg (by simp [hq0])]
      exact ⟨[], b, by simp⟩
    | cons c as ih =>
      simp only [List.cons_append, List.append_assoc] at ih ⊢
      rw [List.dropWhile_cons]
      by_cases hqc : q c
      · rw [if_pos hqc]
        exact ih
      · rw [if_neg hqc]
        exact ⟨c :: as, b, by simp⟩

theorem substr_dropWhileEnd {q : Char → Bool} {p s : Str} (h : IsSubstr p s)
    (hl : ∀ c, p.getLast? = some c → q c = false) : IsSubstr p (dropWhileEnd q s) := by
  have h1 : IsSubstr p.reverse s.reverse := h.reverse
  have h2 : IsSubstr p.reverse (s.reverse.dropWhile q) := by
    refine substr_dropWhile h1 ?_
    intro c hc
    exact hl c (by rwa [List.head?_reverse] at hc)
  have h3 := h2.reverse
  rwa [List.reverse_reverse, ← dropWhileEnd] at h3

theorem substr_pyStrip {p s : Str} (h : IsSubstr p s)
    (hh : ∀ c, p.head? = some c → isPyWs c = false)
    (hl : ∀ c, p.getLast? = some c → isPyWs c = false) : IsSubstr p (pyStrip s) :=
  substr_dropWhileEnd (substr_dropWhile h hh) hl

/-! ## Lemmas: replaceAll -/

theorem replaceAllF_fuel {old new : Str} :
    ∀ (f1 : Nat) (s : Str) (f2 : Nat), s.length ≤ f1 → s.length ≤ f2 →
      replaceAllF old new f1 s = replaceAllF old new f2 s := by
  intro f1
  induction f1 with
  | zero =>
    intro s f2 h1 h2
    obtain rfl : s = [] := List.eq_nil_of_length_eq_zero (Nat.le_zero.1 h1)
    cases f2 <;> rfl
  | succ f ih =>
    intro s f2 h1 h2
    cases s with
    | nil => cases f2 <;> rfl
    | cons c rest =>
      cases f2 with
      | zero => simp at h2
      | succ g =>
        simp only [List.length_cons] at h1 h2
        simp only [replaceAllF]
        by_cases hg : old ≠ [] ∧ isPre old (c :: rest) = true
        · rw [if_pos hg, if_pos hg]
          have hol : old.length ≠ 0 := fun h0 => hg.1 (List.eq_nil_of_length_eq_zero h0)
          have hlf : ((c :: rest).drop old.length).length ≤ f := by
            simp only [List.length_drop, List.length_cons]
            omega
          have hlg : ((c :: rest).drop old.length).length ≤ g := by
            simp only [List.length_drop, List.length_cons]
            omega
          rw [ih _ g hlf hlg]
        · rw [if_neg hg, if_neg hg, ih rest g (by omega) (by omega)]

theorem replaceAll_nil (old new : Str) : replaceAll old new [] = [] := rfl

theorem replaceAll_cons_pos {old new : Str} {c : Char} {rest : Str}
    (h : old ≠ [] ∧ isPre old (c :: rest) = true) :
    replaceAll old new (c :: rest) = new ++ replaceAll old new ((c :: rest).drop old.length) := by
  have hol : old.length ≠ 0 := fun h0 => h.1 (List.eq_nil_of_length_eq_zero h0)
  rw [replaceAll, replaceAll, List.length_cons, replaceAllF, if_pos h]
  congr 1
  refine replaceAllF_fuel _ _ _ ?_ le_rfl
  simp only [List.length_drop, List.length_cons]
  omega

theorem replaceAll_cons_neg {old : Str} {c : Char} {rest : Str} (new : Str)
    (h : ¬ (old ≠ [] ∧ isPre old (c :: rest) = true)) :
    replaceAll old new (c :: rest) = c :: replaceAll old new rest := by
  rw [replaceAll, replaceAll, List.length_cons, replaceAllF, if_neg h]

theorem replaceAll_ind (old _new : Str) (motive : Str → Prop) (case1 : motive [])
    (case2 : ∀ c rest, (old ≠ [] ∧ isPre old (c :: rest) = true) →
      motive ((c :: rest).drop old.length) → motive (c :: rest))
    (case3 : ∀ c rest, ¬ (old ≠ [] ∧ isPre old (c :: rest) = true) →
      motive rest → motive (c :: rest)) : ∀ s, motive s := by
  have H : ∀ n (s : Str), s.length ≤ n → motive s := by
    intro n
    induction n with
    | zero =>
      intro s hs
      obtain rfl : s = [] := List.eq_nil_of_length_eq_zero (Nat.le_zero.1 hs)
      exact case1
    | succ n ih =>
      intro s hs
      cases s with
      | nil => exact case1
      | cons c rest =>
        simp only [List.length_cons] at hs
        by_cases hg : old ≠ [] ∧ isPre old (c :: rest) = true
        · refine case2 c rest hg (ih _ ?_)
          have hol : old.length ≠ 0 := fun h0 => hg.1 (List.eq_nil_of_length_eq_zero h0)
          simp only [List.length_drop, List.length_cons]
          omega
        · exact case3 c rest hg (ih rest (by omega))
  exact fun s => H s.length s le_rfl

theorem replaceAll_prefix {old : Str} (new : Str) (x : Str) (h : old ≠ []) :
    replaceAll old new (old ++ x) = new ++ replaceAll old new x := by
  cases hold : old with
  | nil => exact absurd hold h
  | cons c cs =>
    subst hold
    rw [List.cons_append, replaceAll_cons_pos
      ⟨h, by rw [← List.cons_append]; exact isPre_append_right x (isPre_refl _)⟩]
    rw [← List.cons_append, List.drop_left]

theorem replaceAll_self {old : Str} (new : Str) (h : old ≠ []) :
    replaceAll old new old = new := by
  have := replaceAll_prefix new [] h
  simpa [replaceAll_nil] using this

theorem replaceAll_of_not_substr {old new s : Str} (h : ¬ IsSubstr old s) :
    replaceAll old new s = s := by
  induction s using replaceAll_ind old new with
  | case1 => exact replaceAll_nil old new
  | case2 c rest hg ih =>
    exfalso
    obtain ⟨t, ht⟩ := isPre_iff.1 hg.2
    exact h ⟨[], t, by simpa using ht⟩
  | case3 c rest hg ih =>
    rw [replaceAll_cons_neg new hg, ih]
    intro hsub
    exact h (hsub.trans ⟨[c], [], by simp⟩)

theorem replaceAll_new_substr {old new s : Str} (hold : old ≠ []) (h : IsSubstr old s) :
    IsSubstr new (replaceAll old new s) := by
  induction s using replaceAll_ind old new with
  | case1 => exact absurd h.of_eq_nil hold
  | case2 c rest hg ih =>
    rw [replaceAll_cons_pos hg]
    exact ⟨[], replaceAll old new ((c :: rest).drop old.length), by simp⟩
  | case3 c rest hg ih =>
    rw [replaceAll_cons_neg new hg]
    rcases h.cons_elim with ⟨t, ht⟩ | hsub
    · exact absurd ⟨hold, isPre_iff.2 ⟨t, ht⟩⟩ hg
    · exact (ih hsub).trans ⟨[c], [], by simp⟩

theorem replaceAll_ne_nil {old new s : Str} (hnew : new ≠ []) (hs : s ≠ []) :
    replaceAll old new s ≠ [] := by
  induction s using replaceAll_ind old new with
  | case1 => exact absurd rfl hs
  | case2 c rest hg ih =>
    rw [replaceAll_cons_pos hg]
    simp [hnew]
  | case3 c rest hg ih =>
    rw [replaceAll_cons_neg new hg]
    simp

theorem replaceAll_single_append (c0 : Char) (new a b : Str) :
    replaceAll [c0] new (a ++ b) = replaceAll [c0] new a ++ replaceAll [c0] new b := by
  induction a with
  | nil => simp [replaceAll_nil]
  | cons c as ih =>
    by_cases hc : c0 = c
    · subst hc
      have h1 : (c0 :: as) ++ b = [c0] ++ (as ++ b) := by simp
      have h2 : (c0 :: as) = [c0] ++ as := by simp
      rw [h1, replaceAll_prefix new (as ++ b) (by simp), h2,
        replaceAll_prefix new as (by simp), ih, List.append_assoc]
    · have hg : ∀ x : Str, ¬ (([c0] : Str) ≠ [] ∧ isPre [c0] (c :: x) = true) := by
        intro x hx
        obtain ⟨t, ht⟩ := isPre_iff.1 hx.2
        obtain ⟨h1, -⟩ := List.cons.inj ht
        exact hc h1.symm
      rw [List.cons_append, replaceAll_cons_neg new (hg (as ++ b)),
        replaceAll_cons_neg new (hg as), ih, List.cons_append]

theorem replaceAll_pySplit {sep : Char} {old new : Str} (hold : old ≠ [])
    (hso : sep ∉ old) (hsn : sep ∉ new) (s : Str) :
    pySplit sep (replaceAll old new s) = (pySplit sep s).map (replaceAll old new) := by
  induction s using replaceAll_ind old new with
  | case1 => simp [replaceAll_nil, pySplit]
  | case2 c rest hg ih =>
    obtain ⟨x, hx⟩ := isPre_iff.1 hg.2
    have hdrop : (c :: rest).drop old.length = x := by rw [hx, List.drop_left]
    rw [hdrop] at ih
    rw [replaceAll_cons_pos hg, hdrop, hx, pySplit_head_append hsn, pySplit_head_append hso, ih]
    have := pySplit_ne_nil sep x
    cases hps : pySplit sep x with
    | nil => exact absurd hps this
    | cons p ps =>
      simp only [List.map_cons, List.modifyHead]
      rw [ replaceAll_prefix new p hold]
  | case3 c rest hg ih =>
    have hnp : ¬ isPre old (c :: rest) = true := by
      intro hp
      exact hg ⟨hold, hp⟩
    rw [replaceAll_cons_neg new hg]
    by_cases hcs : c = sep
    · subst hcs
      rw [pySplit_cons_sep, pySplit_cons_sep, ih, List.map_cons, replaceAll_nil]
    · have := pySplit_ne_nil sep rest
      cases hps : pySplit sep rest with
      | nil => exact absurd hps this
      | cons p ps =>
        obtain ⟨r, hr⟩ := pySplit_head_pre hps
        have hnp2 : ¬ (old ≠ [] ∧ isPre old (c :: p) = true) := by
          rintro ⟨-, hp⟩
          obtain ⟨t, ht⟩ := isPre_iff.1 hp
          refine hnp (isPre_iff.2 ⟨t ++ r, ?_⟩)
          rw [hr, ← List.cons_append, ht, List.append_assoc]
        have hfps : pySplit sep (replaceAll old new rest) =
            replaceAll old new p :: ps.map (replaceAll old new) := by
          rw [ih, hps, List.map_cons]
        rw [pySplit_cons_of_ne hcs hfps, pySplit_cons_of_ne hcs hps, List.map_cons,
          replaceAll_cons_neg new hnp2]

/-! ## Lemmas: parse and extract invariants -/

theorem parse_crontab_line_fields {hashF : Str → Nat} {line : Str} {r : Schedule}
    (h : parse_crontab_line hashF line = some r) :
    r.raw = line ∧ r.id = pyId hashF line ∧
      r.enabled = !(isPre "#".data (pyStrip line)) ∧
      6 ≤ (pySplitWs (pyStrip (lstripHS line))).length := by
  unfold parse_crontab_line at h
  by_cases hlen : (pySplitWs (pyStrip (lstripHS line))).length < 6
  · rw [if_pos hlen] at h
    exact absurd h (by simp)
  · rw [if_neg hlen] at h
    obtain rfl := Option.some.inj h
    exact ⟨rfl, rfl, rfl, by omega⟩

theorem mem_extract {hashF : Str → Nat} {t : Str} {s : Schedule}
    (h : s ∈ extract_iptv_schedules hashF t) :
    pyStrip s.raw = s.raw ∧ s.raw ≠ [] ∧ lineRelevant s.raw = true ∧
      parse_crontab_line hashF s.raw = some s ∧ '\n' ∉ s.raw := by
  obtain ⟨rawLine, hmem, hg⟩ := List.mem_filterMap.1 h
  by_cases he : pyStrip rawLine = []
  · rw [if_pos he] at hg
    exact absurd hg (by simp)
  · rw [if_neg he] at hg
    by_cases hrel : lineRelevant (pyStrip rawLine) = true
    · rw [if_pos hrel] at hg
      have hfields := parse_crontab_line_fields hg
      have hraw : s.raw = pyStrip rawLine := hfields.1
      have hnl : '\n' ∉ s.raw := by
        rw [hraw]
        intro hc
        exact mem_pySplit_not_sep hmem ((pyStrip_substr rawLine).mem hc)
      refine ⟨?_, ?_, ?_, ?_, hnl⟩
      · rw [hraw, pyStrip_idem]
      · rw [hraw]; exact he
      · rw [hraw]; exact hrel
      · rw [hraw]; exact hg
    · rw [if_neg hrel] at hg
      exact absurd hg (by simp)

theorem extract_enabled {hashF : Str → Nat} {t : Str} {s : Schedule}
    (h : s ∈ extract_iptv_schedules hashF t) :
    s.enabled = !(isPre "#".data s.raw) := by
  obtain ⟨hstrip, -, -, hparse, -⟩ := mem_extract h
  have := (parse_crontab_line_fields hparse).2.2.1
  rwa [hstrip] at this

/-! ## Helper: mapM over Option -/

theorem str_data_comma : ",".data = [','] := rfl

theorem mapM_flatten_mem {α : Type} (f : α → Option (List Int)) (l : List α)
    (h : ∀ p ∈ l, (f p).isSome) :
    ∃ bs : List (List Int), l.mapM f = some bs ∧
      ∀ x : Int, x ∈ bs.flatten ↔ ∃ p ∈ l, ∃ lp, f p = some lp ∧ x ∈ lp := by
  induction l with
  | nil => exact ⟨[], rfl, by simp⟩
  | cons p ps ih =>
    obtain ⟨lp, hlp⟩ := Option.isSome_iff_exists.1 (h p (List.mem_cons_self p ps))
    obtain ⟨bs, hbs, hmem⟩ := ih (fun q hq => h q (List.mem_cons_of_mem p hq))
    refine ⟨lp :: bs, ?_, ?_⟩
    · rw [List.mapM_cons, hlp, hbs]
      rfl
    · intro x
      simp only [List.flatten_cons, List.mem_append, hmem, List.mem_cons]
      constructor
      · rintro (hx | ⟨q, hq, lq, hlq, hxq⟩)
        · exact ⟨p, Or.inl rfl, lp, hlp, hx⟩
        · exact ⟨q, Or.inr hq, lq, hlq, hxq⟩
      · rintro ⟨q, rfl | hq, lq, hlq, hxq⟩
        · rw [hlp] at hlq
          exact Or.inl (Option.some.inj hlq ▸ hxq)
        · exact Or.inr ⟨q, hq, lq, hlq, hxq⟩

/-! ## Claim theorems -/

/-- Claim C9 (code bug): the spec requires `should_skip_crontab_off` to
return (without raising) true iff the override end instant is set and the
remaining time is strictly positive.  The `app.py` implementation satisfies
this, but the `crontab_manager.py` implementation raises `NameError` as
soon as the end instant is set (the module never imports `time`), so the
claim fails for that implementation: at `timer_end_time = some 1000`,
`now = 400` it raises instead of returning true. -/
theorem C9_should_skip_crontab_off :
    (∀ e n, app_should_skip_crontab_off e n = true ↔ ∃ t, e = some t ∧ 0 < t - n) ∧
    app_should_skip_crontab_off (some 1000) 400 = true ∧
    cm_should_skip_crontab_off (some 1000) 400 = Except.error () := by
  refine ⟨?_, by decide, rfl⟩
  intro e n
  cases e with
  | none => simp [app_should_skip_crontab_off]
  | some t =>
    simp only [app_should_skip_crontab_off, Option.some.injEq]
    by_cases h : 0 < t - n
    · simp [h]
      omega
    · simp [h]
      omega

/-- Claim C6: when no extracted domain record's id equals the given id,
`delete_schedule` returns False without writing the table, and
`update_schedule` returns False without attempting the add and without
writing (a `none` result is exactly the source's early `return False`
with no `set_crontab` call). -/
theorem C6_not_found_no_write (hashF : Str → Nat) (t : Str) (sid : Nat)
    (h : ∀ s ∈ extract_iptv_schedules hashF t, s.id ≠ sid) :
    delete_schedule hashF t sid = none ∧
      ∀ sd u, update_schedule hashF sd t sid u = none := by
  have hfind : (extract_iptv_schedules hashF t).find? (fun s => s.id == sid) = none := by
    rw [List.find?_eq_none]
    intro s hs
    simpa using h s hs
  refine ⟨?_, ?_⟩
  · rw [delete_schedule, hfind]
  · intro sd u
    rw [update_schedule, delete_schedule, hfind]

/-- Witness for C6 at a concrete table: the table's one domain record has
a different id, so delete and update fail without writing. -/
theorem C6_witness :
    (∀ s ∈ extract_iptv_schedules demoHash "0 5 * * 1 /sbin/ip link set ens1 up".data,
      s.id ≠ 1) ∧
    (delete_schedule demoHash "0 5 * * 1 /sbin/ip link set ens1 up".data 1 = none ∧
      ∀ sd u, update_schedule demoHash sd "0 5 * * 1 /sbin/ip link set ens1 up".data 1 u = none) :=
  ⟨by decide, C6_not_found_no_write demoHash "0 5 * * 1 /sbin/ip link set ens1 up".data 1
    (by decide)⟩

/-- Claim C3: `parse_weekday('*')` is exactly the seven internal weekdays;
a dash range `a-b` (0 ≤ a ≤ b ≤ 6) is exactly the conversions of the
external values a..b under external 0 ↦ internal 6, external n ↦ n−1;
`parse_weekday('1-5')` is exactly {0,1,2,3,4}; a comma list whose terms
all parse yields the union of its terms. -/
theorem C3_parse_weekday :
    parse_weekday "*".data = some [0, 1, 2, 3, 4, 5, 6] ∧
    (∀ a b : Fin 7, a ≤ b →
      parse_weekday [Char.ofNat (48 + a.val), '-', Char.ofNat (48 + b.val)] =
        some (((List.range 7).filter (fun i => decide (a.val ≤ i) && decide (i ≤ b.val))).map
          (fun i => if i = 0 then (6 : Int) else (i : Int) - 1))) ∧
    parse_weekday "1-5".data = some [0, 1, 2, 3, 4] ∧
    (∀ parts : List Str, parts ≠ [] → (∀ p ∈ parts, ',' ∉ p) →
      pyJoin ",".data parts ≠ "*".data →
      (∀ p ∈ parts, (parseWeekdayPart p).isSome) →
      ∃ L, parse_weekday (pyJoin ",".data parts) = some L ∧
        ∀ x : Int, x ∈ L ↔ ∃ p ∈ parts, ∃ lp, parseWeekdayPart p = some lp ∧ x ∈ lp) := by
  refine ⟨by decide, by decide, by decide, ?_⟩
  intro parts hne hnc hnstar hsome
  obtain ⟨bs, hbs, hmem⟩ := mapM_flatten_mem parseWeekdayPart parts hsome
  refine ⟨bs.flatten, ?_, hmem⟩
  rw [parse_weekday, if_neg hnstar, str_data_comma, pySplit_pyJoin hne hnc, hbs]
  rfl

/-- Witness for C3: the range part at `1-5` and the comma-union part at
`1,6`. -/
theorem C3_witness :
    parse_weekday [Char.ofNat 49, '-', Char.ofNat 53] =
      some ((((List.range 7).filter (fun i => decide (1 ≤ i) && decide (i ≤ 5)))).map
        (fun i => if i = 0 then (6 : Int) else (i : Int) - 1)) ∧
    ∃ L, parse_weekday (pyJoin ",".data ["1".data, "6".data]) = some L ∧
      ∀ x : Int, x ∈ L ↔
        ∃ p ∈ (["1".data, "6".data] : List Str), ∃ lp, parseWeekdayPart p = some lp ∧ x ∈ lp :=
  ⟨C3_parse_weekday.2.1 1 5 (by decide),
    C3_parse_weekday.2.2.2 ["1".data, "6".data] (by decide) (by decide) (by decide) (by decide)⟩

/-! ## Lemmas: the next-run loop -/

theorem nextRunLoop_step_hit {h m : Nat} {ws : List Int} {ft ct : Nat} (n : Nat)
    (hw : wdMatch ws (ct / 86400)) (hlt : ft < runAt h m (ct / 86400)) :
    nextRunLoop h m ws ft ct (n + 1) = some (runAt h m (ct / 86400)) := by
  simp only [nextRunLoop]
  rw [if_pos (show ((pyWeekday ct : Int) ∈ ws) from hw),
    if_pos (show ft < ct / 86400 * 86400 + h * 3600 + m * 60 from hlt)]
  rfl

theorem nextRunLoop_step_pass {h m : Nat} {ws : List Int} {ft ct : Nat} (n : Nat)
    (hw : wdMatch ws (ct / 86400)) (hge : ¬ ft < runAt h m (ct / 86400)) :
    nextRunLoop h m ws ft ct (n + 1) = nextRunLoop h m ws ft (ct + 86400) n := by
  simp only [nextRunLoop]
  rw [if_pos (show ((pyWeekday ct : Int) ∈ ws) from hw),
    if_neg (show ¬ ft < ct / 86400 * 86400 + h * 3600 + m * 60 from hge)]

theorem nextRunLoop_step_miss {h m : Nat} {ws : List Int} {ft ct : Nat} (n : Nat)
    (hw : ¬ wdMatch ws (ct / 86400)) :
    nextRunLoop h m ws ft ct (n + 1) = nextRunLoop h m ws ft (ct + 86400) n := by
  simp only [nextRunLoop]
  rw [if_neg (show ¬ ((pyWeekday ct : Int) ∈ ws) from hw)]

theorem nextRunLoop_spec (h m : Nat) (ws : List Int) (ft : Nat) :
    ∀ (n ct : Nat),
      (∀ r, nextRunLoop h m ws ft ct n = some r ↔
        ∃ k, k < n ∧ wdMatch ws (ct / 86400 + k) ∧ r = runAt h m (ct / 86400 + k) ∧
          ft < r ∧ ∀ j, j < k → wdMatch ws (ct / 86400 + j) → runAt h m (ct / 86400 + j) ≤ ft) ∧
      (nextRunLoop h m ws ft ct n = none ↔
        ∀ k, k < n → wdMatch ws (ct / 86400 + k) → runAt h m (ct / 86400 + k) ≤ ft) := by
  intro n
  induction n with
  | zero =>
    intro ct
    constructor
    · intro r
      simp [nextRunLoop]
    · simp [nextRunLoop]
  | succ n ih =>
    intro ct
    have hdiv : (ct + 86400) / 86400 = ct / 86400 + 1 := by omega
    have hd0 : ct / 86400 + 0 = ct / 86400 := by omega
    by_cases hw0 : wdMatch ws (ct / 86400)
    · by_cases hlt : ft < runAt h m (ct / 86400)
      · rw [nextRunLoop_step_hit n hw0 hlt]
        constructor
        · intro r
          constructor
          · intro hr
            obtain rfl : runAt h m (ct / 86400) = r := Option.some.inj hr
            exact ⟨0, by omega, by rwa [hd0], by rw [hd0], hlt, by omega⟩
          · rintro ⟨k, hk, hkw, rfl, hkf, hmin⟩
            cases k with
            | zero => rw [hd0]
            | succ k' =>
              exfalso
              have := hmin 0 (by omega) (by rwa [hd0])
              rw [hd0] at this
              omega
        · constructor
          · intro hr
            exact absurd hr (by simp)
          · intro hall
            have := hall 0 (by omega) (by rwa [hd0])
            rw [hd0] at this
            omega
      · rw [nextRunLoop_step_pass n hw0 hlt]
        obtain ⟨ihs, ihn⟩ := ih (ct + 86400)
        constructor
        · intro r
          rw [ihs r]
          constructor
          · rintro ⟨k', hk', hkw, rfl, hkf, hmin⟩
            refine ⟨k' + 1, by omega, ?_, ?_, hkf, ?_⟩
            · rwa [show ct / 86400 + (k' + 1) = (ct + 86400) / 86400 + k' by omega]
            · rw [show ct / 86400 + (k' + 1) = (ct + 86400) / 86400 + k' by omega]
            · intro j hj hjw
              cases j with
              | zero => rw [hd0]; omega
              | succ j' =>
                rw [show ct / 86400 + (j' + 1) = (ct + 86400) / 86400 + j' by omega] at hjw ⊢
                exact hmin j' (by omega) hjw
          · rintro ⟨k, hk, hkw, rfl, hkf, hmin⟩
            cases k with
            | zero =>
              exfalso
              rw [hd0] at hkf
              omega
            | succ k' =>
              refine ⟨k', by omega, ?_, ?_, hkf, ?_⟩
              · rwa [show (ct + 86400) / 86400 + k' = ct / 86400 + (k' + 1) by omega]
              · rw [show (ct + 86400) / 86400 + k' = ct / 86400 + (k' + 1) by omega]
              · intro j' hj' hjw
                rw [show (ct + 86400) / 86400 + j' = ct / 86400 + (j' + 1) by omega] at hjw ⊢
                exact hmin (j' + 1) (by omega) hjw
        · rw [ihn]
          constructor
          · intro hall k hk hkw
            cases k with
            | zero => rw [hd0] at hkw ⊢; omega
            | succ k' =>
              rw [show ct / 86400 + (k' + 1) = (ct + 86400) / 86400 + k' by omega] at hkw ⊢
              exact hall k' (by omega) hkw
          · intro hall k' hk' hkw
            rw [show (ct + 86400) / 86400 + k' = ct / 86400 + (k' + 1) by omega] at hkw ⊢
            exact hall (k' + 1) (by omega) hkw
    · rw [nextRunLoop_step_miss n hw0]
      obtain ⟨ihs, ihn⟩ := ih (ct + 86400)
      constructor
      · intro r
        rw [ihs r]
        constructor
        · rintro ⟨k', hk', hkw, rfl, hkf, hmin⟩
          refine ⟨k' + 1, by omega, ?_, ?_, hkf, ?_⟩
          · rwa [show ct / 86400 + (k' + 1) = (ct + 86400) / 86400 + k' by omega]
          · rw [show ct / 86400 + (k' + 1) = (ct + 86400) / 86400 + k' by omega]
          · intro j hj hjw
            cases j with
            | zero =>
              rw [hd0] at hjw
              exact absurd hjw hw0
            | succ j' =>
              rw [show ct / 86400 + (j' + 1) = (ct + 86400) / 86400 + j' by omega] at hjw ⊢
              exact hmin j' (by omega) hjw
        · rintro ⟨k, hk, hkw, rfl, hkf, hmin⟩
          cases k with
          | zero =>
            rw [hd0] at hkw
            exact absurd hkw hw0
          | succ k' =>
            refine ⟨k', by omega, ?_, ?_, hkf, ?_⟩
            · rwa [show (ct + 86400) / 86400 + k' = ct / 86400 + (k' + 1) by omega]
            · rw [show (ct + 86400) / 86400 + k' = ct / 86400 + (k' + 1) by omega]
            · intro j' hj' hjw
              rw [show (ct + 86400) / 86400 + j' = ct / 86400 + (j' + 1) by omega] at hjw ⊢
              exact hmin (j' + 1) (by omega) hjw
      · rw [ihn]
        constructor
        · intro hall k hk hkw
          cases k with
          | zero =>
            rw [hd0] at hkw
            exact absurd hkw hw0
          | succ k' =>
            rw [show ct / 86400 + (k' + 1) = (ct + 86400) / 86400 + k' by omega] at hkw ⊢
            exact hall k' (by omega) hkw
        · intro hall k' hk' hkw
          rw [show (ct + 86400) / 86400 + k' = ct / 86400 + (k' + 1) by omega] at hkw ⊢
          exact hall (k' + 1) (by omega) hkw

/-- Claim C2: for a record whose hour and minute parse as integers in
range (0..23, 0..59) and whose weekday spec parses, `calculate_next_run`
returns the earliest instant strictly later than `fromTime` among the 8
calendar days starting at `fromTime`'s day whose weekday lies in the
parsed set, at hour:minute:00 — and `none` when no such instant exists in
those 8 days; the `day` and `month` fields never affect the result. -/
theorem C2_calculate_next_run (s : Schedule) (t : Nat) (h m : Int) (ws : List Int)
    (hh : pyParseInt s.hour = some h) (hm : pyParseInt s.minute = some m)
    (hw : parse_weekday s.weekday = some ws)
    (hh0 : 0 ≤ h) (hh23 : h ≤ 23) (hm0 : 0 ≤ m) (hm59 : m ≤ 59) :
    (∀ r, calculate_next_run s t = some r →
      t < r ∧ nextRunCandidate h.toNat m.toNat ws t r ∧
        ∀ r2, nextRunCandidate h.toNat m.toNat ws t r2 → t < r2 → r ≤ r2) ∧
    (calculate_next_run s t = none →
      ∀ r, nextRunCandidate h.toNat m.toNat ws t r → ¬ t < r) ∧
    (∀ d mo, calculate_next_run { s with day := d, month := mo } t = calculate_next_run s t) := by
  have hcalc : calculate_next_run s t = nextRunLoop h.toNat m.toNat ws t (t - t % 60) 8 := by
    simp only [calculate_next_run, hh, hm, hw]
    rw [if_pos ⟨hh0, hh23, hm0, hm59⟩]
  have hdiv : (t - t % 60) / 86400 = t / 86400 := by omega
  obtain ⟨hs, hn⟩ := nextRunLoop_spec h.toNat m.toNat ws t 8 (t - t % 60)
  rw [hdiv] at hs hn
  refine ⟨?_, ?_, ?_⟩
  · intro r hr
    rw [hcalc, hs r] at hr
    obtain ⟨k, hk8, hkw, rfl, hkf, hmin⟩ := hr
    refine ⟨hkf, ⟨k, hk8, hkw, rfl⟩, ?_⟩
    rintro r2 ⟨k2, hk28, hk2w, rfl⟩ hlt2
    by_cases hkk : k2 < k
    · exact absurd hlt2 (by simpa using Nat.not_lt.2 (hmin k2 hkk hk2w))
    · have : k ≤ k2 := by omega
      simp only [runAt]
      have : t / 86400 + k ≤ t / 86400 + k2 := by omega
      omega
  · intro hr
    rw [hcalc, hn] at hr
    rintro r ⟨k, hk8, hkw, rfl⟩
    exact Nat.not_lt.2 (hr k hk8 hkw)
  · intro d mo
    rfl

/-- Witness for C2: weekday `*`, hour 17, minute 0 at Tuesday 16:00
(day 5 of the timeline, a Tuesday) — the next run is that day's 17:00. -/
theorem C2_witness :
    calculate_next_run
      { id := 0, minute := "0".data, hour := "17".data, day := "*".data, month := "*".data,
        weekday := "*".data, action := "off".data, command := [], enabled := true,
        raw := [] } 489600 = some 493200 ∧
    (∀ r, calculate_next_run
        { id := 0, minute := "0".data, hour := "17".data, day := "*".data, month := "*".data,
          weekday := "*".data, action := "off".data, command := [], enabled := true,
          raw := [] } 489600 = some r →
      489600 < r ∧ nextRunCandidate 17 0 [0, 1, 2, 3, 4, 5, 6] 489600 r ∧
        ∀ r2, nextRunCandidate 17 0 [0, 1, 2, 3, 4, 5, 6] 489600 r2 → 489600 < r2 → r ≤ r2) :=
  ⟨by decide,
    (C2_calculate_next_run
      { id := 0, minute := "0".data, hour := "17".data, day := "*".data, month := "*".data,
        weekday := "*".data, action := "off".data, command := [], enabled := true, raw := [] }
      489600 17 0 [0, 1, 2, 3, 4, 5, 6]
      (by decide) (by decide) (by decide) (by decide) (by decide) (by decide) (by decide)).1⟩

/-! ## Lemmas: the stable sort -/

theorem optLe_refl (a : Option Nat) : optLe a a = true := by
  cases a <;> simp [optLe]

theorem optLe_total (a b : Option Nat) : optLe a b = true ∨ optLe b a = true := by
  cases a <;> cases b <;> simp [optLe] <;> omega

theorem optLe_trans {a b c : Option Nat} (h1 : optLe a b = true) (h2 : optLe b c = true) :
    optLe a c = true := by
  cases a <;> cases b <;> cases c <;> simp [optLe] at * <;> omega

theorem mem_insOrd (le : Schedule → Schedule → Bool) (x : Schedule) (l : List Schedule)
    (a : Schedule) : a ∈ insOrd le x l ↔ a = x ∨ a ∈ l := by
  induction l with
  | nil => simp [insOrd]
  | cons y ys ih =>
    by_cases h : le x y
    · simp [insOrd, h]
    · simp only [insOrd, if_neg h, List.mem_cons, ih]
      tauto

theorem insOrd_perm (le : Schedule → Schedule → Bool) (x : Schedule) (l : List Schedule) :
    (insOrd le x l).Perm (x :: l) := by
  induction l with
  | nil => simp [insOrd]
  | cons y ys ih =>
    by_cases h : le x y
    · simp [insOrd, h]
    · rw [insOrd, if_neg h]
      exact (ih.cons y).trans (List.Perm.swap x y ys)

theorem stableSort_perm (le : Schedule → Schedule → Bool) (l : List Schedule) :
    (stableSort le l).Perm l := by
  induction l with
  | nil => simp [stableSort]
  | cons x xs ih =>
    rw [stableSort]
    exact (insOrd_perm le x (stableSort le xs)).trans (ih.cons x)

theorem pairwise_insOrd {le : Schedule → Schedule → Bool}
    (htot : ∀ a b, le a b = true ∨ le b a = true)
    (htrans : ∀ a b c, le a b = true → le b c = true → le a c = true)
    {x : Schedule} {l : List Schedule} (hl : l.Pairwise (fun a b => le a b = true)) :
    (insOrd le x l).Pairwise (fun a b => le a b = true) := by
  induction l with
  | nil => simp [insOrd]
  | cons y ys ih =>
    rw [List.pairwise_cons] at hl
    by_cases h : le x y
    · rw [insOrd, if_pos h, List.pairwise_cons]
      refine ⟨?_, List.pairwise_cons.2 hl⟩
      intro b hb
      rcases List.mem_cons.1 hb with rfl | hb2
      · exact h
      · exact htrans x y b h (hl.1 b hb2)
    · rw [insOrd, if_neg h, List.pairwise_cons]
      have hyx : le y x = true := by
        rcases htot x y with h1 | h1
        · exact absurd h1 h
        · exact h1
      refine ⟨?_, ih hl.2⟩
      intro b hb
      rcases (mem_insOrd le x ys b).1 hb with rfl | hb2
      · exact hyx
      · exact hl.1 b hb2

theorem pairwise_stableSort {le : Schedule → Schedule → Bool}
    (htot : ∀ a b, le a b = true ∨ le b a = true)
    (htrans : ∀ a b c, le a b = true → le b c = true → le a c = true)
    (l : List Schedule) : (stableSort le l).Pairwise (fun a b => le a b = true) := by
  induction l with
  | nil => simp [stableSort]
  | cons x xs ih => exact pairwise_insOrd htot htrans ih

theorem filter_insOrd_eq_key {le : Schedule → Schedule → Bool} {key : Schedule → Option Nat}
    (hle : ∀ a b, le a b = optLe (key a) (key b)) {x : Schedule} {k : Option Nat}
    (hx : key x = k) (l : List Schedule) :
    (insOrd le x l).filter (fun s => key s == k) = x :: l.filter (fun s => key s == k) := by
  induction l with
  | nil => simp [insOrd, hx]
  | cons y ys ih =>
    by_cases h : le x y
    · rw [insOrd, if_pos h]
      simp [hx]
    · rw [insOrd, if_neg h]
      have hky : ¬ key y = k := by
        intro hyk
        rw [hle, hx, ← hyk] at h
        exact h (optLe_refl (key y))
      rw [List.filter_cons, List.filter_cons]
      simp only [beq_iff_eq, hky]
      simpa [hky] using ih

theorem filter_insOrd_ne_key {le : Schedule → Schedule → Bool} {key : Schedule → Option Nat}
    {x : Schedule} {k : Option Nat} (hx : ¬ key x = k) (l : List Schedule) :
    (insOrd le x l).filter (fun s => key s == k) = l.filter (fun s => key s == k) := by
  induction l with
  | nil => simp [insOrd, hx]
  | cons y ys ih =>
    by_cases h : le x y
    · rw [insOrd, if_pos h]
      simp [hx]
    · rw [insOrd, if_neg h, List.filter_cons, List.filter_cons, ih]

theorem filter_stableSort {le : Schedule → Schedule → Bool} {key : Schedule → Option Nat}
    (hle : ∀ a b, le a b = optLe (key a) (key b)) (l : List Schedule) (k : Option Nat) :
    (stableSort le l).filter (fun s => key s == k) = l.filter (fun s => key s == k) := by
  induction l with
  | nil => rfl
  | cons x xs ih =>
    rw [stableSort]
    by_cases hx : key x = k
    · rw [filter_insOrd_eq_key hle hx, ih, List.filter_cons]
      simp [hx]
    · rw [filter_insOrd_ne_key hx, ih, List.filter_cons]
      simp [hx]

/-- Claim C7: `get_all_schedules` returns exactly the extracted domain
records (a permutation), sorted ascending by the computed next occurrence
relative to `now` with uncomputable records (`none`, the `datetime.max`
sentinel) last, and ties keep the original table order (the filter at each
key value is unchanged — stability). -/
theorem C7_get_all_schedules (hashF : Str → Nat) (crontab : Str) (now : Nat) :
    (get_all_schedules hashF crontab now).Perm (extract_iptv_schedules hashF crontab) ∧
    (get_all_schedules hashF crontab now).Pairwise
      (fun a b => optLe (calculate_next_run a now) (calculate_next_run b now) = true) ∧
    (get_all_schedules hashF crontab now).Pairwise
      (fun a b => calculate_next_run a now = none → calculate_next_run b now = none) ∧
    ∀ k : Option Nat,
      (get_all_schedules hashF crontab now).filter (fun s => calculate_next_run s now == k) =
        (extract_iptv_schedules hashF crontab).filter (fun s => calculate_next_run s now == k) := by
  have hle : ∀ a b, sortKeyLe now a b =
      optLe (calculate_next_run a now) (calculate_next_run b now) := fun a b => rfl
  have htot : ∀ a b, sortKeyLe now a b = true ∨ sortKeyLe now b a = true := by
    intro a b
    rw [hle, hle]
    exact optLe_total _ _
  have htrans : ∀ a b c, sortKeyLe now a b = true → sortKeyLe now b c = true →
      sortKeyLe now a c = true := by
    intro a b c h1 h2
    rw [hle] at *
    exact optLe_trans h1 h2
  have hsorted := pairwise_stableSort htot htrans (extract_iptv_schedules hashF crontab)
  refine ⟨stableSort_perm _ _, ?_, ?_, ?_⟩
  · exact hsorted.imp (fun hab => by rwa [hle] at hab)
  · refine hsorted.imp ?_
    intro a b hab ha
    rw [hle, ha] at hab
    cases hb : calculate_next_run b now with
    | none => rfl
    | some v => rw [hb] at hab; simp [optLe] at hab
  · intro k
    exact filter_stableSort hle (extract_iptv_schedules hashF crontab) k

/-- Claim C1, amended (the original claim is refuted by
`C1_counterexample`): when a record with the given id is found,
`toggle_schedule` flips its enabled flag by adding or removing the leading
`'# '` marker on its line and replaces **every** textual occurrence of the
old raw line with the new line in the full table text (Python
`str.replace` with no count), then persists the result. -/
theorem C1_toggle_replaces_every_occurrence (hashF : Str → Nat) (crontab : Str) (sid : Nat)
    (target : Schedule)
    (hfind : (extract_iptv_schedules hashF crontab).find? (fun s => s.id == sid) = some target) :
    toggle_schedule hashF crontab sid =
      some (replaceAll target.raw
        (if target.enabled then '#' :: ' ' :: target.raw else lstripHS target.raw) crontab) := by
  have hmem : target ∈ extract_iptv_schedules hashF crontab := List.mem_of_find?_eq_some hfind
  have hen := extract_enabled hmem
  have hstrip := (mem_extract hmem).1
  simp only [toggle_schedule, hfind]
  cases he : target.enabled with
  | true =>
    have hpre : isPre "#".data (pyStrip target.raw) = false := by
      rw [hstrip]
      rw [he] at hen
      simpa using hen.symm
    simp [hpre]
  | false =>
    simp

/-- Counterexample to claim C1 as stated: in a table whose two lines are
textually identical domain records, toggling the (shared) id rewrites
both occurrences, not only the first — the persisted table disables both
lines, and differs from the table the claim requires (first occurrence
rewritten, second left unchanged). -/
theorem C1_counterexample :
    toggle_schedule demoHash
        "0 5 * * 1 /sbin/ip link set ens1 up\n0 5 * * 1 /sbin/ip link set ens1 up\n".data
        (pyId demoHash "0 5 * * 1 /sbin/ip link set ens1 up".data) =
      some "# 0 5 * * 1 /sbin/ip link set ens1 up\n# 0 5 * * 1 /sbin/ip link set ens1 up\n".data ∧
    some "# 0 5 * * 1 /sbin/ip link set ens1 up\n# 0 5 * * 1 /sbin/ip link set ens1 up\n".data ≠
      some "# 0 5 * * 1 /sbin/ip link set ens1 up\n0 5 * * 1 /sbin/ip link set ens1 up\n".data := by
  constructor
  · decide
  · decide

/-- Witness for C1 on a one-line table: the record is found and toggling
rewrites its line with the leading marker added. -/
theorem C1_witness :
    (extract_iptv_schedules demoHash "0 5 * * 1 /sbin/ip link set ens1 up".data).find?
        (fun s => s.id == pyId demoHash "0 5 * * 1 /sbin/ip link set ens1 up".data) =
      some { id := pyId demoHash "0 5 * * 1 /sbin/ip link set ens1 up".data,
             minute := "0".data, hour := "5".data, day := "*".data, month := "*".data,
             weekday := "1".data, action := "on".data,
             command := "/sbin/ip link set ens1 up".data, enabled := true,
             raw := "0 5 * * 1 /sbin/ip link set ens1 up".data } ∧
    toggle_schedule demoHash "0 5 * * 1 /sbin/ip link set ens1 up".data
        (pyId demoHash "0 5 * * 1 /sbin/ip link set ens1 up".data) =
      some (replaceAll "0 5 * * 1 /sbin/ip link set ens1 up".data
        (if true then '#' :: ' ' :: "0 5 * * 1 /sbin/ip link set ens1 up".data
         else lstripHS "0 5 * * 1 /sbin/ip link set ens1 up".data)
        "0 5 * * 1 /sbin/ip link set ens1 up".data) :=
  ⟨by decide,
    C1_toggle_replaces_every_occurrence demoHash "0 5 * * 1 /sbin/ip link set ens1 up".data
      (pyId demoHash "0 5 * * 1 /sbin/ip link set ens1 up".data)
      { id := pyId demoHash "0 5 * * 1 /sbin/ip link set ens1 up".data,
        minute := "0".data, hour := "5".data, day := "*".data, month := "*".data,
        weekday := "1".data, action := "on".data,
        command := "/sbin/ip link set ens1 up".data, enabled := true,
        raw := "0 5 * * 1 /sbin/ip link set ens1 up".data }
      (by decide)⟩

/-! ## Lemmas: single-line tables and the comment marker -/

theorem parse_some_of_len {hashF : Str → Nat} {line : Str}
    (h : 6 ≤ (pySplitWs (pyStrip (lstripHS line))).length) :
    ∃ r, parse_crontab_line hashF line = some r := by
  rw [parse_crontab_line]
  rw [if_neg (by omega)]
  exact ⟨_, rfl⟩

theorem extract_single {hashF : Str → Nat} {l : Str} {r : Schedule}
    (hstrip : pyStrip l = l) (hnl : '\n' ∉ l) (hne : l ≠ [])
    (hrel : lineRelevant l = true) (hparse : parse_crontab_line hashF l = some r) :
    extract_iptv_schedules hashF l = [r] := by
  rw [extract_iptv_schedules, pySplit_no_sep hnl, List.filterMap_cons]
  simp only [hstrip, if_neg hne, hrel, if_pos, hparse]
  rfl

theorem pyCleanLine_hash_space (s : Str) : pyCleanLine ('#' :: ' ' :: s) = pyCleanLine s := by
  rw [pyCleanLine, pyCleanLine]
  have h1 : replaceAll "#".data [] ('#' :: ' ' :: s) = ' ' :: replaceAll "#".data [] s := by
    have h2 : ('#' : Char) :: ' ' :: s = "#".data ++ (' ' :: s) := rfl
    rw [h2, replaceAll_prefix [] (' ' :: s) (by simp [str_data_hash]), List.nil_append,
      replaceAll_cons_neg]
    rintro ⟨-, hp⟩
    rw [str_data_hash] at hp
    simp [isPre] at hp
  rw [h1, show (' ' :: replaceAll "#".data [] s : Str) = [' '] ++ replaceAll "#".data [] s
    from rfl]
  exact pyStrip_ws_left _ (by intro c hc; simp at hc; subst hc; rfl)

theorem occursIn_hash_space {m s : Str} (h : occursIn m s = true) :
    occursIn m ('#' :: ' ' :: s) = true := by
  rw [occursIn_iff] at h ⊢
  obtain ⟨a, b, rfl⟩ := h
  exact ⟨'#' :: ' ' :: a, b, rfl⟩

theorem lineRelevant_hash_space {s : Str} (h : lineRelevant s = true) :
    lineRelevant ('#' :: ' ' :: s) = true := by
  rw [lineRelevant] at h ⊢
  rw [pyCleanLine_hash_space]
  simp only [Bool.or_eq_true] at h ⊢
  rcases h with ((h1 | h2) | h3) | h4
  · exact Or.inl (Or.inl (Or.inl (occursIn_hash_space h1)))
  · exact Or.inl (Or.inl (Or.inr h2))
  · exact Or.inl (Or.inr (occursIn_hash_space h3))
  · exact Or.inr h4

theorem lstripHS_hash_space (s : Str) : lstripHS ('#' :: ' ' :: s) = lstripHS s := by
  rw [lstripHS, List.dropWhile_cons, if_pos (by decide), List.dropWhile_cons,
    if_pos (by decide)]
  rfl

theorem lineRelevant_unhash {s : Str} (hs : lstripHS s = s)
    (h : lineRelevant ('#' :: ' ' :: s) = true) : lineRelevant s = true := by
  have hdw : ('#' :: ' ' :: s).dropWhile (fun c => c == '#' || c == ' ') = s := by
    have := lstripHS_hash_space s
    rw [lstripHS] at this
    rw [this]
    exact hs
  have hdrop : ∀ m : Str, (∀ c, m.head? = some c → (c == '#' || c == ' ') = false) →
      occursIn m ('#' :: ' ' :: s) = true → occursIn m s = true := by
    intro m hm hocc
    rw [occursIn_iff] at hocc ⊢
    have hsub := substr_dropWhile hocc hm
    rwa [hdw] at hsub
  rw [lineRelevant] at h ⊢
  rw [pyCleanLine_hash_space] at h
  simp only [Bool.or_eq_true] at h ⊢
  rcases h with ((h1 | h2) | h3) | h4
  · exact Or.inl (Or.inl (Or.inl (hdrop markerUp (by decide) h1)))
  · exact Or.inl (Or.inl (Or.inr h2))
  · exact Or.inl (Or.inr (hdrop markerOffScript (by decide) h3))
  · exact Or.inr h4

theorem isPre_hash_cons (c : Char) (t : Str) : isPre "#".data (c :: t) = ('#' == c) := by
  show isPre ['#'] (c :: t) = ('#' == c)
  simp [isPre]

theorem qchar_false {c : Char} (h1 : c ≠ '#') (h2 : isPyWs c = false) :
    (c == '#' || c == ' ') = false := by
  have hh : (c == '#') = false := by
    cases hb : c == '#'
    · rfl
    · exact absurd (by simpa using hb) h1
  have hs : (c == ' ') = false := by
    cases hb : c == ' '
    · rfl
    · obtain rfl : c = ' ' := by simpa using hb
      exact absurd h2 (by decide)
  simp [hh, hs]

theorem toggle_single {hashF : Str → Nat} {l : Str} {r : Schedule}
    (hstrip : pyStrip l = l) (hnl : '\n' ∉ l) (hne : l ≠ [])
    (hrel : lineRelevant l = true) (hparse : parse_crontab_line hashF l = some r) :
    toggle_schedule hashF l (pyId hashF l) =
      some (if isPre "#".data l = true then lstripHS l else '#' :: ' ' :: l) := by
  have hfind : (extract_iptv_schedules hashF l).find? (fun s => s.id == pyId hashF l) =
      some r := by
    rw [extract_single hstrip hnl hne hrel hparse]
    have hid : r.id = pyId hashF l := (parse_crontab_line_fields hparse).2.1
    simp [List.find?, hid]
  have hraw : r.raw = l := (parse_crontab_line_fields hparse).1
  have hen : r.enabled = !(isPre "#".data l) := by
    have := (parse_crontab_line_fields hparse).2.2.1
    rwa [hstrip] at this
  simp only [toggle_schedule, hfind, hraw]
  cases hp : isPre "#".data l with
  | true =>
    rw [hen, hp]
    simp [replaceAll_self _ hne]
  | false =>
    rw [hen, hp]
    simp [hstrip, hp, replaceAll_self _ hne]

/-- Claim C5, amended (the original claim is refuted by
`C5_counterexample`): for a single-line table holding one domain record
whose line is either enabled (no leading `'#'`) or disabled with the
marker being exactly `'# '` followed by a character other than `'#'` and
whitespace, one toggle changes exactly the leading `'# '` (added or
removed, all other bytes identical), and toggling again with the
resulting record's new id restores the byte-identical original line. -/
theorem C5_toggle_round_trip (hashF : Str → Nat) (l : Str) (r : Schedule)
    (hstrip : pyStrip l = l) (hnl : '\n' ∉ l)
    (hrel : lineRelevant l = true) (hparse : parse_crontab_line hashF l = some r)
    (hform : isPre "#".data l = false ∨
      ∃ c0 rest, l = '#' :: ' ' :: c0 :: rest ∧ c0 ≠ '#' ∧ isPyWs c0 = false) :
    ∃ l1, toggle_schedule hashF l (pyId hashF l) = some l1 ∧
      (l1 = '#' :: ' ' :: l ∨ l = '#' :: ' ' :: l1) ∧
      toggle_schedule hashF l1 (pyId hashF l1) = some l := by
  have hne : l ≠ [] := by
    rintro rfl
    exact absurd hrel (by decide)
  have hlast : ∀ c, l.getLast? = some c → isPyWs c = false := by
    intro c hc
    refine pyStrip_last l c ?_
    rwa [hstrip]
  have hheadws : ∀ c, l.head? = some c → isPyWs c = false := by
    intro c hc
    refine pyStrip_head l c ?_
    rwa [hstrip]
  have hlen := (parse_crontab_line_fields hparse).2.2.2
  rcases hform with hpre | ⟨c0, rest, hl, hc0, hws⟩
  · -- enabled case: toggling adds '# ', toggling again removes it
    have hheadq : ∀ c, l.head? = some c → (c == '#' || c == ' ') = false := by
      intro c hc
      refine qchar_false ?_ (hheadws c hc)
      intro hcc
      subst hcc
      cases l with
      | nil => exact absurd rfl hne
      | cons d t =>
        obtain rfl : d = '#' := by simpa using hc
        rw [isPre_hash_cons] at hpre
        simp at hpre
    have hlhs : lstripHS l = l := dropWhile_eq_self_of_head hheadq
    have ht1 : toggle_schedule hashF l (pyId hashF l) = some ('#' :: ' ' :: l) := by
      rw [toggle_single hstrip hnl hne hrel hparse, if_neg (by simp [hpre])]
    refine ⟨'#' :: ' ' :: l, ht1, Or.inl rfl, ?_⟩
    have hstrip1 : pyStrip ('#' :: ' ' :: l) = '#' :: ' ' :: l := by
      refine pyStrip_eq_self ?_ ?_
      · intro c hc
        obtain rfl : '#' = c := by simpa using hc
        decide
      · intro c hc
        have : ('#' :: ' ' :: l).getLast? = l.getLast? := by
          show ((['#', ' '] : Str) ++ l).getLast? = l.getLast?
          exact List.getLast?_append_of_ne_nil _ hne
        rw [this] at hc
        exact hlast c hc
    have hnl1 : '\n' ∉ ('#' :: ' ' :: l) := by simp [hnl]
    have hrel1 := lineRelevant_hash_space hrel
    have hlhs1 : lstripHS ('#' :: ' ' :: l) = l := by rw [lstripHS_hash_space, hlhs]
    have hlen1 : 6 ≤ (pySplitWs (pyStrip (lstripHS ('#' :: ' ' :: l)))).length := by
      rw [hlhs1, hstrip]
      rwa [hlhs, hstrip] at hlen
    obtain ⟨r2, hparse2⟩ := @parse_some_of_len hashF _ hlen1
    rw [toggle_single hstrip1 hnl1 (by simp) hrel1 hparse2,
      if_pos (by rw [isPre_hash_cons]; simp), hlhs1]
  · -- disabled case with marker exactly '# ': toggling removes it, then re-adds it
    have hcoreq : ∀ c, (c0 :: rest).head? = some c → (c == '#' || c == ' ') = false := by
      intro c hc
      obtain rfl : c0 = c := by simpa using hc
      exact qchar_false hc0 hws
    have hlcore : lstripHS (c0 :: rest) = c0 :: rest := dropWhile_eq_self_of_head hcoreq
    have hlhs : lstripHS l = c0 :: rest := by
      rw [hl, lstripHS_hash_space, hlcore]
    have hpre_t : isPre "#".data l = true := by
      rw [hl, isPre_hash_cons]
      simp
    have ht1 : toggle_schedule hashF l (pyId hashF l) = some (c0 :: rest) := by
      rw [toggle_single hstrip hnl hne hrel hparse, if_pos hpre_t, hlhs]
    refine ⟨c0 :: rest, ht1, Or.inr (by rw [hl]), ?_⟩
    have hstripc : pyStrip (c0 :: rest) = c0 :: rest := by
      refine pyStrip_eq_self ?_ ?_
      · intro c hc
        obtain rfl : c0 = c := by simpa using hc
        exact hws
      · intro c hc
        have hgl : l.getLast? = (c0 :: rest).getLast? := by
          rw [hl]
          show ((['#', ' '] : Str) ++ (c0 :: rest)).getLast? = (c0 :: rest).getLast?
          exact List.getLast?_append_of_ne_nil _ (by simp)
        exact hlast c (by rw [hgl]; exact hc)
    have hnlc : '\n' ∉ (c0 :: rest) := by
      intro hc
      refine hnl ?_
      rw [hl]
      simp only [List.mem_cons] at hc ⊢
      tauto
    have hrelc : lineRelevant (c0 :: rest) = true := by
      refine lineRelevant_unhash ?_ ?_
      · exact hlcore
      · rw [← hl]
        exact hrel
    have hlenc : 6 ≤ (pySplitWs (pyStrip (lstripHS (c0 :: rest)))).length := by
      rw [hlcore, hstripc]
      rwa [hlhs, hstripc] at hlen
    obtain ⟨r2, hparse2⟩ := @parse_some_of_len hashF _ hlenc
    rw [toggle_single hstripc hnlc (by simp) hrelc hparse2, if_neg ?_, ← hl]
    rw [isPre_hash_cons]
    intro hcc
    have hcq : '#' = c0 := by simpa using hcc
    exact hc0 hcq.symm

/-- Counterexample to claim C5 as stated: the domain line
`#0 17 * * 1 /sbin/ip link set ens1 up` (disabled, but with no space after
`#`) does not round-trip: the first toggle strips `#`, the second re-adds
`# ` with a space, producing a line that differs byte-wise from the
original. -/
theorem C5_counterexample :
    toggle_schedule demoHash "#0 17 * * 1 /sbin/ip link set ens1 up".data
        (pyId demoHash "#0 17 * * 1 /sbin/ip link set ens1 up".data) =
      some "0 17 * * 1 /sbin/ip link set ens1 up".data ∧
    toggle_schedule demoHash "0 17 * * 1 /sbin/ip link set ens1 up".data
        (pyId demoHash "0 17 * * 1 /sbin/ip link set ens1 up".data) =
      some "# 0 17 * * 1 /sbin/ip link set ens1 up".data ∧
    ("# 0 17 * * 1 /sbin/ip link set ens1 up".data : Str) ≠
      "#0 17 * * 1 /sbin/ip link set ens1 up".data := by
  refine ⟨by decide, by decide, by decide⟩

/-- Witness for C5 on the enabled line `0 5 * * 1 /sbin/ip link set ens1 up`. -/
theorem C5_witness :
    (pyStrip "0 5 * * 1 /sbin/ip link set ens1 up".data =
        "0 5 * * 1 /sbin/ip link set ens1 up".data ∧
      '\n' ∉ "0 5 * * 1 /sbin/ip link set ens1 up".data ∧
      lineRelevant "0 5 * * 1 /sbin/ip link set ens1 up".data = true ∧
      isPre "#".data "0 5 * * 1 /sbin/ip link set ens1 up".data = false) ∧
    ∃ l1, toggle_schedule demoHash "0 5 * * 1 /sbin/ip link set ens1 up".data
        (pyId demoHash "0 5 * * 1 /sbin/ip link set ens1 up".data) = some l1 ∧
      (l1 = '#' :: ' ' :: "0 5 * * 1 /sbin/ip link set ens1 up".data ∨
        "0 5 * * 1 /sbin/ip link set ens1 up".data = '#' :: ' ' :: l1) ∧
      toggle_schedule demoHash l1 (pyId demoHash l1) =
        some "0 5 * * 1 /sbin/ip link set ens1 up".data :=
  ⟨⟨by decide, by decide, by decide, by decide⟩,
    C5_toggle_round_trip demoHash "0 5 * * 1 /sbin/ip link set ens1 up".data
      { id := pyId demoHash "0 5 * * 1 /sbin/ip link set ens1 up".data,
        minute := "0".data, hour := "5".data, day := "*".data, month := "*".data,
        weekday := "1".data, action := "on".data,
        command := "/sbin/ip link set ens1 up".data, enabled := true,
        raw := "0 5 * * 1 /sbin/ip link set ens1 up".data }
      (by decide) (by decide) (by decide) (by decide) (Or.inl (by decide))⟩

/-! ## Lemmas: append/delete plumbing -/

theorem find?_append_of_none {p : Schedule → Bool} {l1 : List Schedule} (l2 : List Schedule)
    (h : ∀ x ∈ l1, p x = false) : (l1 ++ l2).find? p = l2.find? p := by
  induction l1 with
  | nil => rfl
  | cons a as ih =>
    rw [List.cons_append, List.find?_cons, h a (List.mem_cons_self a as)]
    exact ih (fun x hx => h x (List.mem_cons_of_mem a hx))

theorem isSuf_iff {pat s : Str} : isSuf pat s = true ↔ ∃ t0, s = t0 ++ pat := by
  rw [isSuf, isPre_iff]
  constructor
  · rintro ⟨u, hu⟩
    refine ⟨u.reverse, ?_⟩
    have := congrArg List.reverse hu
    simpa using this
  · rintro ⟨t0, rfl⟩
    exact ⟨t0.reverse, by simp⟩

theorem occursIn_self (s : Str) : occursIn s s = true :=
  occursIn_iff.2 ⟨[], [], by simp⟩

theorem occursIn_nil_of_ne {nl : Str} (h : nl ≠ []) : occursIn nl [] = false := by
  cases nl with
  | nil => exact absurd rfl h
  | cons c cs => rfl

theorem lineRelevant_ne_nil {l : Str} (h : lineRelevant l = true) : l ≠ [] := by
  rintro rfl
  exact absurd h (by decide)

/-- Claim C4, amended (the original claim is refuted by
`C4_counterexample`): adding a well-formed domain schedule and then
deleting the newly added record's computed id restores the table
byte-identically **when the original table is empty or ends in a
newline**; otherwise the result is the original table with a single
trailing newline appended (added by `add_schedule`'s padding and kept by
the delete's join).  The provisos are the claim's (no existing table line
contains the new raw line as a substring) plus no id collision with an
existing record. -/
theorem C4_add_delete_round_trip (hashF : Str → Nat) (sd : Str) (sched : NewSchedule) (t : Str)
    (hnl : '\n' ∉ build_crontab_line sd sched)
    (hstrip : pyStrip (build_crontab_line sd sched) = build_crontab_line sd sched)
    (hrel : lineRelevant (build_crontab_line sd sched) = true)
    (hlen : 6 ≤ (pySplitWs (pyStrip (lstripHS (build_crontab_line sd sched)))).length)
    (hnosub : ∀ p ∈ pySplit '\n' t, occursIn (build_crontab_line sd sched) p = false)
    (hnoid : ∀ s ∈ extract_iptv_schedules hashF t,
      s.id ≠ pyId hashF (build_crontab_line sd sched)) :
    ∃ t1, add_schedule sd sched t = some t1 ∧
      delete_schedule hashF t1 (pyId hashF (build_crontab_line sd sched)) =
        some (if t ≠ [] ∧ ¬ isSuf "\n".data t = true then t ++ "\n".data else t) := by
  obtain ⟨r, hparse⟩ := @parse_some_of_len hashF _ hlen
  set nl := build_crontab_line sd sched with hnldef
  have hne : nl ≠ [] := lineRelevant_ne_nil hrel
  have hraw : r.raw = nl := (parse_crontab_line_fields hparse).1
  have hid : r.id = pyId hashF nl := (parse_crontab_line_fields hparse).2.1
  refine ⟨_, rfl, ?_⟩
  have hmain : ∀ PS : List Str,
      pySplit '\n' ((if t ≠ [] ∧ ¬ isSuf "\n".data t = true then t ++ "\n".data else t) ++
        nl ++ "\n".data) = PS ++ [nl, []] →
      (PS.filterMap (fun rawLine =>
        let line := pyStrip rawLine
        if line = [] then none
        else if lineRelevant line then parse_crontab_line hashF line
        else none) = extract_iptv_schedules hashF t) →
      (∀ p ∈ PS, occursIn nl p = false) →
      delete_schedule hashF
          ((if t ≠ [] ∧ ¬ isSuf "\n".data t = true then t ++ "\n".data else t) ++
            nl ++ "\n".data) (pyId hashF nl) =
        some (pyJoin "\n".data (PS ++ [[]])) := by
    intro PS hsplit hfm hkeep
    have hextract : extract_iptv_schedules hashF
        ((if t ≠ [] ∧ ¬ isSuf "\n".data t = true then t ++ "\n".data else t) ++
          nl ++ "\n".data) = extract_iptv_schedules hashF t ++ [r] := by
      rw [extract_iptv_schedules, hsplit, List.filterMap_append, hfm]
      congr 1
      simp only [List.filterMap_cons, List.filterMap_nil]
      rw [hstrip]
      simp [hne, hrel, hparse, show pyStrip ([] : Str) = [] from rfl]
    have hfind : (extract_iptv_schedules hashF
        ((if t ≠ [] ∧ ¬ isSuf "\n".data t = true then t ++ "\n".data else t) ++
          nl ++ "\n".data)).find? (fun s => s.id == pyId hashF nl) = some r := by
      rw [hextract, find?_append_of_none]
      · simp [List.find?, hid]
      · intro x hx
        simp [hnoid x hx]
    simp only [delete_schedule, hfind]
    rw [hsplit, hraw]
    congr 1
    rw [List.filter_append]
    have h1 : PS.filter (fun line => !occursIn nl line) = PS := by
      rw [List.filter_eq_self]
      intro p hp
      rw [hkeep p hp]
      rfl
    have h2 : ([nl, []] : List Str).filter (fun line => !occursIn nl line) = [[]] := by
      simp [List.filter, occursIn_self, occursIn_nil_of_ne hne]
    rw [h1, h2]
  show delete_schedule hashF
      ((if t ≠ [] ∧ ¬ isSuf "\n".data t = true then t ++ "\n".data else t) ++ nl ++ "\n".data)
      (pyId hashF nl) =
    some (if t ≠ [] ∧ ¬ isSuf "\n".data t = true then t ++ "\n".data else t)
  by_cases hpad : t ≠ [] ∧ ¬ isSuf "\n".data t = true
  · -- non-empty table without trailing newline: one is inserted and kept
    have hsplit : pySplit '\n' ((if t ≠ [] ∧ ¬ isSuf "\n".data t = true
        then t ++ "\n".data else t) ++ nl ++ "\n".data) = pySplit '\n' t ++ [nl, []] := by
      rw [if_pos hpad, str_data_nl]
      rw [show (t ++ ['\n']) ++ nl ++ ['\n'] = t ++ '\n' :: (nl ++ ['\n']) by simp]
      rw [pySplit_append_sep, show (nl ++ ['\n'] : Str) = nl ++ '\n' :: [] by simp,
        pySplit_append_sep, pySplit_no_sep hnl]
      rfl
    have hres := hmain (pySplit '\n' t) hsplit rfl hnosub
    rw [if_pos hpad] at hres ⊢
    rw [hres]
    congr 1
    rw [str_data_nl, pyJoin_append_single _ (pySplit_ne_nil '\n' t), pyJoin_pySplit]
    simp
  · rw [if_neg hpad] at *
    rcases Decidable.not_and_iff_or_not.1 hpad with hteq | hsuf
    · -- empty table
      obtain rfl : t = [] := by
        by_cases h : t = []
        · exact h
        · exact absurd h hteq
      have hsplit : pySplit '\n' (([] : Str) ++ nl ++ "\n".data) = [] ++ [nl, []] := by
        rw [str_data_nl, List.nil_append,
          show (nl ++ ['\n'] : Str) = nl ++ '\n' :: [] by simp, pySplit_append_sep,
          pySplit_no_sep hnl]
        rfl
      have hfm : ([] : List Str).filterMap (fun rawLine =>
          let line := pyStrip rawLine
          if line = [] then none
          else if lineRelevant line then parse_crontab_line hashF line
          else none) = extract_iptv_schedules hashF [] := by
        rw [extract_iptv_schedules]
        rfl
      have hres := hmain [] hsplit hfm (by simp)
      rw [hres]
      rfl
    · -- table already newline-terminated
      have hsuf2 : isSuf "\n".data t = true := by
        by_cases h : isSuf "\n".data t = true
        · exact h
        · exact absurd h (by simpa using hsuf)
      obtain ⟨t0, rfl⟩ := isSuf_iff.1 hsuf2
      have hsplit : pySplit '\n' ((t0 ++ "\n".data) ++ nl ++ "\n".data) =
          pySplit '\n' t0 ++ [nl, []] := by
        rw [str_data_nl]
        rw [show (t0 ++ ['\n']) ++ nl ++ ['\n'] = t0 ++ '\n' :: (nl ++ ['\n']) by simp]
        rw [pySplit_append_sep, show (nl ++ ['\n'] : Str) = nl ++ '\n' :: [] by simp,
          pySplit_append_sep, pySplit_no_sep hnl]
        rfl
      have hfm : (pySplit '\n' t0).filterMap (fun rawLine =>
          let line := pyStrip rawLine
          if line = [] then none
          else if lineRelevant line then parse_crontab_line hashF line
          else none) = extract_iptv_schedules hashF (t0 ++ "\n".data) := by
        rw [extract_iptv_schedules, str_data_nl,
          show (t0 ++ ['\n'] : Str) = t0 ++ '\n' :: [] by simp, pySplit_append_sep,
          List.filterMap_append]
        simp [pySplit, show pyStrip ([] : Str) = [] from rfl]
      have hkeep0 : ∀ p ∈ pySplit '\n' t0, occursIn nl p = false := by
        intro p hp
        refine hnosub p ?_
        rw [str_data_nl, show (t0 ++ ['\n'] : Str) = t0 ++ '\n' :: [] by simp,
          pySplit_append_sep]
        exact List.mem_append_left _ hp
      have hres := hmain (pySplit '\n' t0) hsplit hfm hkeep0
      rw [hres]
      congr 1
      rw [str_data_nl, pyJoin_append_single _ (pySplit_ne_nil '\n' t0), pyJoin_pySplit]
      simp

/-- Counterexample to claim C4 as stated: adding to the table `# note`
(non-empty, no trailing newline) and deleting the new record leaves
`# note\n` — the original text plus a trailing newline, not the
byte-identical original, even though no other domain line shares a
substring with the new raw line. -/
theorem C4_counterexample :
    add_schedule "/opt".data
        { minute := "0".data, hour := "5".data, day := "*".data, month := "*".data,
          weekday := "*".data, action := "on".data,
          command := some "/sbin/ip link set ens1 up".data, enabled := true }
        "# note".data =
      some "# note\n0 5 * * * /sbin/ip link set ens1 up\n".data ∧
    delete_schedule demoHash "# note\n0 5 * * * /sbin/ip link set ens1 up\n".data
        (pyId demoHash "0 5 * * * /sbin/ip link set ens1 up".data) =
      some "# note\n".data ∧
    ("# note\n".data : Str) ≠ "# note".data := by
  refine ⟨by decide, by decide, by decide⟩

/-- Witness for C4 on the newline-terminated table `# other\n`: the add
then delete round trip restores the table byte-identically. -/
theorem C4_witness :
    ('\n' ∉ build_crontab_line "/opt".data
        { minute := "0".data, hour := "5".data, day := "*".data, month := "*".data,
          weekday := "*".data, action := "on".data,
          command := some "/sbin/ip link set ens1 up".data, enabled := true } ∧
      ∀ p ∈ pySplit '\n' "# other\n".data,
        occursIn (build_crontab_line "/opt".data
          { minute := "0".data, hour := "5".data, day := "*".data, month := "*".data,
            weekday := "*".data, action := "on".data,
            command := some "/sbin/ip link set ens1 up".data, enabled := true }) p = false) ∧
    ∃ t1, add_schedule "/opt".data
        { minute := "0".data, hour := "5".data, day := "*".data, month := "*".data,
          weekday := "*".data, action := "on".data,
          command := some "/sbin/ip link set ens1 up".data, enabled := true }
        "# other\n".data = some t1 ∧
      delete_schedule demoHash t1
          (pyId demoHash (build_crontab_line "/opt".data
            { minute := "0".data, hour := "5".data, day := "*".data, month := "*".data,
              weekday := "*".data, action := "on".data,
              command := some "/sbin/ip link set ens1 up".data, enabled := true })) =
        some (if "# other\n".data ≠ [] ∧ ¬ isSuf "\n".data "# other\n".data = true
          then "# other\n".data ++ "\n".data else "# other\n".data) :=
  ⟨⟨by decide, by decide⟩,
    C4_add_delete_round_trip demoHash "/opt".data
      { minute := "0".data, hour := "5".data, day := "*".data, month := "*".data,
        weekday := "*".data, action := "on".data,
        command := some "/sbin/ip link set ens1 up".data, enabled := true }
      "# other\n".data
      (by decide) (by decide) (by decide) (by decide) (by decide) (by decide)⟩


/-! ## Lemmas: whitespace splitting -/

theorem takeWhile_append_of_all {p : Char → Bool} {a : Str} (x : Str)
    (h : ∀ c ∈ a, p c = true) : (a ++ x).takeWhile p = a ++ x.takeWhile p := by
  induction a with
  | nil => rfl
  | cons c as ih =>
    rw [List.cons_append, List.takeWhile_cons, if_pos (h c (List.mem_cons_self c as)),
      ih (fun d hd => h d (List.mem_cons_of_mem c hd)), List.cons_append]

theorem pySplitWs_cons (c : Char) (rest : Str) :
    pySplitWs (c :: rest) =
      if isPyWs c then pySplitWs rest
      else match rest with
        | [] => [[c]]
        | d :: _ =>
          if isPyWs d then [c] :: pySplitWs rest
          else match pySplitWs rest with
            | [] => [[c]]
            | tok :: toks => (c :: tok) :: toks := rfl

theorem pySplitWs_cons_ws {c : Char} (rest : Str) (h : isPyWs c = true) :
    pySplitWs (c :: rest) = pySplitWs rest := by
  rw [pySplitWs_cons, if_pos h]

theorem pySplitWs_cons_nonws {c : Char} (rest : Str) (h : isPyWs c = false) :
    pySplitWs (c :: rest) =
      (c :: rest.takeWhile (fun d => !isPyWs d)) ::
        pySplitWs (rest.dropWhile (fun d => !isPyWs d)) := by
  induction rest generalizing c with
  | nil =>
    have hnc : ¬ isPyWs c = true := by simp [h]
    simp [pySplitWs, hnc]
  | cons d r ih =>
    have hnc : ¬ isPyWs c = true := by simp [h]
    rw [pySplitWs_cons, if_neg hnc]
    cases hd : isPyWs d with
    | true =>
      simp only [List.takeWhile_cons, List.dropWhile_cons, hd]
      norm_num
    | false =>
      have hnd : ¬ isPyWs d = true := by simp [hd]
      have hrec := @ih d hd
      simp only [if_neg hnd]
      rw [hrec]
      simp only [List.takeWhile_cons, List.dropWhile_cons, hd]
      norm_num

theorem takeWhile_append_none {p : Char → Bool} {b : Str} (x : Str)
    (h : ∀ c ∈ b, p c = false) : (x ++ b).takeWhile p = x.takeWhile p := by
  induction x with
  | nil =>
    cases b with
    | nil => rfl
    | cons d b' =>
      rw [List.nil_append, List.takeWhile_nil, List.takeWhile_cons,
        if_neg (by simp [h d (List.mem_cons_self d b')])]
  | cons d x' ih =>
    rw [List.cons_append, List.takeWhile_cons, List.takeWhile_cons]
    cases hd : p d with
    | true => rw [if_pos rfl, if_pos rfl, ih]
    | false => rw [if_neg (by simp), if_neg (by simp)]

theorem dropWhile_append_none {p : Char → Bool} {b : Str} (x : Str)
    (h : ∀ c ∈ b, p c = false) : (x ++ b).dropWhile p = x.dropWhile p ++ b := by
  induction x with
  | nil =>
    cases b with
    | nil => rfl
    | cons d b' =>
      rw [List.nil_append, List.dropWhile_nil, List.dropWhile_cons,
        if_neg (by simp [h d (List.mem_cons_self d b')]), List.nil_append]
  | cons d x' ih =>
    rw [List.cons_append, List.dropWhile_cons, List.dropWhile_cons]
    cases hd : p d with
    | true => rw [if_pos rfl, if_pos rfl, ih]
    | false => rw [if_neg (by simp), if_neg (by simp), List.cons_append]

theorem pySplitWs_all_ws {s : Str} (h : ∀ c ∈ s, isPyWs c = true) : pySplitWs s = [] := by
  induction s with
  | nil => rfl
  | cons c rest ih =>
    rw [pySplitWs_cons_ws rest (h c (List.mem_cons_self c rest))]
    exact ih (fun d hd => h d (List.mem_cons_of_mem c hd))

theorem pySplitWs_ws_left {a : Str} (x : Str) (h : ∀ c ∈ a, isPyWs c = true) :
    pySplitWs (a ++ x) = pySplitWs x := by
  induction a with
  | nil => rfl
  | cons c a' ih =>
    rw [List.cons_append, pySplitWs_cons_ws _ (h c (List.mem_cons_self c a'))]
    exact ih (fun d hd => h d (List.mem_cons_of_mem c hd))

theorem pySplitWs_ws_right {b : Str} (h : ∀ c ∈ b, isPyWs c = true) :
    ∀ x : Str, pySplitWs (x ++ b) = pySplitWs x := by
  have hb : ∀ c ∈ b, (fun d => !isPyWs d) c = false := fun c hc => by simp [h c hc]
  have main : ∀ n (x : Str), x.length ≤ n → pySplitWs (x ++ b) = pySplitWs x := by
    intro n
    induction n with
    | zero =>
      intro x hx
      rw [List.length_eq_zero.1 (Nat.le_zero.1 hx), List.nil_append]
      exact pySplitWs_all_ws h
    | succ n ih =>
      intro x hx
      cases x with
      | nil => rw [List.nil_append]; exact pySplitWs_all_ws h
      | cons c x' =>
        cases hc : isPyWs c with
        | true =>
          rw [List.cons_append, pySplitWs_cons_ws _ hc, pySplitWs_cons_ws _ hc]
          exact ih x' (by simpa using Nat.le_of_succ_le_succ hx)
        | false =>
          rw [List.cons_append, pySplitWs_cons_nonws _ hc, pySplitWs_cons_nonws _ hc,
            takeWhile_append_none _ hb, dropWhile_append_none _ hb]
          have hlen : (x'.dropWhile (fun d => !isPyWs d)).length ≤ n := by
            have h0 : (x'.dropWhile (fun d => !isPyWs d)).length ≤ x'.length :=
              (List.dropWhile_sublist _).length_le
            simp only [List.length_cons] at hx
            omega
          rw [ih _ hlen]
  exact fun x => main x.length x le_rfl

theorem pySplitWs_sandwich {a b : Str} (x : Str) (ha : ∀ c ∈ a, isPyWs c = true)
    (hb : ∀ c ∈ b, isPyWs c = true) : pySplitWs (a ++ x ++ b) = pySplitWs x := by
  rw [List.append_assoc, pySplitWs_ws_left _ ha, pySplitWs_ws_right hb]

theorem pySplitWs_token_sep {tok : Str} (rest : Str) (hne : tok ≠ [])
    (hall : ∀ c ∈ tok, isPyWs c = false) :
    pySplitWs (tok ++ ' ' :: rest) = tok :: pySplitWs rest := by
  cases tok with
  | nil => exact absurd rfl hne
  | cons c tk =>
    have hc : isPyWs c = false := hall c (List.mem_cons_self c tk)
    have htk : ∀ d ∈ tk, (fun e => !isPyWs e) d = true :=
      fun d hd => by simp [hall d (List.mem_cons_of_mem c hd)]
    rw [List.cons_append, pySplitWs_cons_nonws _ hc,
      takeWhile_append_of_all _ htk, dropWhile_append_of_all _ htk,
      List.takeWhile_cons, List.dropWhile_cons]
    have hsp : ((!isPyWs ' ') = true) = False := by simp [isPyWs]
    rw [if_neg (by simp [isPyWs]), if_neg (by simp [isPyWs]), List.append_nil,
      pySplitWs_cons_ws _ (by simp [isPyWs])]

theorem pySplitWs_single_token {tok : Str} (hne : tok ≠ [])
    (hall : ∀ c ∈ tok, isPyWs c = false) : pySplitWs tok = [tok] := by
  have h1 : pySplitWs (tok ++ ' ' :: []) = tok :: pySplitWs [] := pySplitWs_token_sep [] hne hall
  have h2 : pySplitWs (tok ++ [' ']) = pySplitWs tok := pySplitWs_ws_right (by simp [isPyWs]) tok
  rw [← h2]
  exact h1

theorem mem_pySplitWs {x : Str} :
    ∀ s : Str, x ∈ pySplitWs s → x ≠ [] ∧ (∀ c ∈ x, isPyWs c = false) ∧ IsSubstr x s := by
  have main : ∀ n (s : Str), s.length ≤ n → x ∈ pySplitWs s →
      x ≠ [] ∧ (∀ c ∈ x, isPyWs c = false) ∧ IsSubstr x s := by
    intro n
    induction n with
    | zero =>
      intro s hs hx
      rw [List.length_eq_zero.1 (Nat.le_zero.1 hs)] at hx
      simp [pySplitWs] at hx
    | succ n ih =>
      intro s hs hx
      cases s with
      | nil => simp [pySplitWs] at hx
      | cons c rest =>
        simp only [List.length_cons] at hs
        cases hc : isPyWs c with
        | true =>
          rw [pySplitWs_cons_ws _ hc] at hx
          obtain ⟨h1, h2, a, b, h3⟩ := ih rest (by omega) hx
          exact ⟨h1, h2, c :: a, b, by rw [h3]; rfl⟩
        | false =>
          rw [pySplitWs_cons_nonws _ hc] at hx
          rcases List.mem_cons.1 hx with hhd | htl
          · subst hhd
            refine ⟨by simp, ?_, [], rest.dropWhile (fun d => !isPyWs d), ?_⟩
            · intro d hd
              rcases List.mem_cons.1 hd with rfl | hd'
              · exact hc
              · have := List.mem_takeWhile_imp hd'
                simpa using this
            · rw [List.nil_append, List.cons_append, List.takeWhile_append_dropWhile]
          · have hlen : (rest.dropWhile (fun d => !isPyWs d)).length ≤ n := by
              have h0 : (rest.dropWhile (fun d => !isPyWs d)).length ≤ rest.length :=
                (List.dropWhile_sublist _).length_le
              omega
            obtain ⟨h1, h2, a, b, h3⟩ := ih _ hlen htl
            refine ⟨h1, h2, (c :: rest.takeWhile (fun d => !isPyWs d)) ++ a, b, ?_⟩
            conv_lhs => rw [show c :: rest = (c :: rest.takeWhile (fun d => !isPyWs d)) ++
              rest.dropWhile (fun d => !isPyWs d) from by
                rw [List.cons_append, List.takeWhile_append_dropWhile]]
            rw [h3]
            simp [List.append_assoc]
  exact fun s => main s.length s le_rfl

theorem prefix_of_no_sep {sc : Char} :
    ∀ p a : Str, sc ∉ p → (∀ b t : Str, a ++ sc :: b = p ++ t → ∃ u, a = p ++ u) := by
  intro p
  induction p with
  | nil => exact fun a _ b t _ => ⟨a, rfl⟩
  | cons q p' ih =>
    intro a hsc b t heq
    cases a with
    | nil =>
      rw [List.nil_append, List.cons_append] at heq
      have hq : sc = q := (List.cons.inj heq).1
      exact absurd (hq ▸ List.mem_cons_self q p') hsc
    | cons e a' =>
      rw [List.cons_append, List.cons_append] at heq
      have he : e = q := (List.cons.inj heq).1
      have htail : a' ++ sc :: b = p' ++ t := (List.cons.inj heq).2
      obtain ⟨u, hu⟩ := ih a' (fun hm => hsc (List.mem_cons_of_mem q hm)) b t htail
      exact ⟨u, by rw [List.cons_append, he, hu]⟩

theorem substr_append_sep {p : Str} {sc : Char} (hsc : sc ∉ p) (hp : p ≠ []) :
    ∀ a b : Str, IsSubstr p (a ++ sc :: b) → IsSubstr p a ∨ IsSubstr p b := by
  intro a
  induction a with
  | nil =>
    intro b h
    rw [List.nil_append] at h
    obtain ⟨x, y, hxy⟩ := h
    cases x with
    | nil =>
      cases p with
      | nil => exact absurd rfl hp
      | cons q p' =>
        rw [List.nil_append, List.cons_append] at hxy
        have : sc = q := (List.cons.inj hxy).1
        exact absurd (this ▸ List.mem_cons_self q p') hsc
    | cons e x' =>
      rw [List.cons_append, List.cons_append] at hxy
      have htail : b = x' ++ p ++ y := (List.cons.inj hxy).2
      exact Or.inr ⟨x', y, htail⟩
  | cons d a' ih =>
    intro b h
    obtain ⟨x, y, hxy⟩ := h
    cases x with
    | nil =>
      rw [List.nil_append] at hxy
      obtain ⟨u, hu⟩ := prefix_of_no_sep p (d :: a') hsc b y hxy
      exact Or.inl ⟨[], u, by rw [List.nil_append, hu]⟩
    | cons e x' =>
      rw [List.cons_append, List.cons_append, List.cons_append] at hxy
      have htail : a' ++ sc :: b = x' ++ p ++ y := (List.cons.inj hxy).2
      rcases ih b ⟨x', y, htail⟩ with hl | hr
      · obtain ⟨u, v, huv⟩ := hl
        exact Or.inl ⟨d :: u, v, by rw [huv]; rfl⟩
      · exact Or.inr hr

theorem substr_pyJoin_sep {p : Str} (hsc : ' ' ∉ p) (hp : p ≠ []) :
    ∀ parts : List Str, IsSubstr p (pyJoin " ".data parts) → ∃ x ∈ parts, IsSubstr p x := by
  intro parts
  induction parts with
  | nil =>
    intro h
    rw [pyJoin] at h
    exact absurd h.of_eq_nil hp
  | cons y ys ih =>
    intro h
    cases ys with
    | nil => exact ⟨y, List.mem_cons_self y [], h⟩
    | cons z zs =>
      rw [pyJoin] at h
      have hsp : y ++ " ".data ++ pyJoin " ".data (z :: zs) =
          y ++ ' ' :: pyJoin " ".data (z :: zs) := by
        rw [List.append_assoc]; rfl
      rw [hsp] at h
      rcases substr_append_sep hsc hp y _ h with hl | hr
      · exact ⟨y, List.mem_cons_self y _, hl⟩
      · obtain ⟨x, hx1, hx2⟩ := ih hr
        exact ⟨x, List.mem_cons_of_mem y hx1, hx2⟩

theorem substr_pyJoin_of_mem {x : Str} (sep : Str) :
    ∀ parts : List Str, x ∈ parts → IsSubstr x (pyJoin sep parts) := by
  intro parts
  induction parts with
  | nil => intro h; simp at h
  | cons y ys ih =>
    intro h
    cases ys with
    | nil =>
      rcases List.mem_cons.1 h with rfl | h'
      · exact ⟨[], [], by simp [pyJoin]⟩
      · simp at h'
    | cons z zs =>
      rcases List.mem_cons.1 h with rfl | h'
      · exact ⟨[], sep ++ pyJoin sep (z :: zs), by rw [pyJoin]; simp [List.append_assoc]⟩
      · obtain ⟨a, b, hab⟩ := ih h'
        refine ⟨y ++ sep ++ a, b, ?_⟩
        rw [pyJoin, hab]
        simp [List.append_assoc]

theorem pySplitWs_substr_token {p : Str} (hp : p ≠ []) (hall : ∀ c ∈ p, isPyWs c = false) :
    ∀ s : Str, IsSubstr p s → ∃ x ∈ pySplitWs s, IsSubstr p x := by
  have main : ∀ n (s : Str), s.length ≤ n → IsSubstr p s →
      ∃ x ∈ pySplitWs s, IsSubstr p x := by
    intro n
    induction n with
    | zero =>
      intro s hs h
      rw [List.length_eq_zero.1 (Nat.le_zero.1 hs)] at h
      exact absurd h.of_eq_nil hp
    | succ n ih =>
      intro s hs h
      cases s with
      | nil => exact absurd h.of_eq_nil hp
      | cons c rest =>
        simp only [List.length_cons] at hs
        cases hc : isPyWs c with
        | true =>
          rcases h.cons_elim with ⟨t, ht⟩ | h'
          · cases p with
            | nil => exact absurd rfl hp
            | cons q p' =>
              rw [List.cons_append] at ht
              have hq : c = q := (List.cons.inj ht).1
              have hf := hall q (List.mem_cons_self q p')
              rw [← hq, hc] at hf
              simp at hf
          · obtain ⟨x, hx1, hx2⟩ := ih rest (by omega) h'
            exact ⟨x, by rw [pySplitWs_cons_ws _ hc]; exact hx1, hx2⟩
        | false =>
          rcases h.cons_elim with ⟨t, ht⟩ | h'
          · cases p with
            | nil => exact absurd rfl hp
            | cons q p' =>
              rw [List.cons_append] at ht
              have hcq : c = q := (List.cons.inj ht).1
              have hrt : rest = p' ++ t := (List.cons.inj ht).2
              refine ⟨c :: rest.takeWhile (fun d => !isPyWs d),
                by rw [pySplitWs_cons_nonws _ hc]; exact List.mem_cons_self _ _, ?_⟩
              have htk : rest.takeWhile (fun d => !isPyWs d) =
                  p' ++ t.takeWhile (fun d => !isPyWs d) := by
                rw [hrt, takeWhile_append_of_all]
                intro d hd
                simp [hall d (List.mem_cons_of_mem q hd)]
              exact ⟨[], t.takeWhile (fun d => !isPyWs d), by
                rw [List.nil_append, htk, hcq]; rfl⟩
          · cases rest with
            | nil => exact absurd h'.of_eq_nil hp
            | cons d r' =>
              obtain ⟨x, hx1, hx2⟩ := ih (d :: r') (by omega) h'
              cases hd : isPyWs d with
              | true =>
                refine ⟨x, ?_, hx2⟩
                rw [pySplitWs_cons_nonws _ hc]
                have htk : (d :: r').takeWhile (fun e => !isPyWs e) = [] := by
                  rw [List.takeWhile_cons, if_neg (by simp [hd])]
                have hdw : (d :: r').dropWhile (fun e => !isPyWs e) = d :: r' := by
                  rw [List.dropWhile_cons, if_neg (by simp [hd])]
                rw [htk, hdw]
                exact List.mem_cons_of_mem _ hx1
              | false =>
                rw [pySplitWs_cons_nonws _ hd] at hx1
                rw [pySplitWs_cons_nonws _ hc]
                have htk : (d :: r').takeWhile (fun e => !isPyWs e) =
                    d :: r'.takeWhile (fun e => !isPyWs e) := by
                  rw [List.takeWhile_cons, if_pos (by simp [hd])]
                have hdw : (d :: r').dropWhile (fun e => !isPyWs e) =
                    r'.dropWhile (fun e => !isPyWs e) := by
                  rw [List.dropWhile_cons, if_pos (by simp [hd])]
                rw [htk, hdw]
                rcases List.mem_cons.1 hx1 with rfl | hx1'
                · refine ⟨c :: d :: r'.takeWhile (fun e => !isPyWs e),
                    List.mem_cons_self _ _, ?_⟩
                  obtain ⟨a, b, hab⟩ := hx2
                  exact ⟨c :: a, b, by rw [hab]; rfl⟩
                · exact ⟨x, List.mem_cons_of_mem _ hx1', hx2⟩
  exact fun s => main s.length s le_rfl

theorem pySplitWs_strip (s : Str) : pySplitWs (pyStrip s) = pySplitWs s := by
  obtain ⟨a, b, hs, ha, hb⟩ := pyStrip_decomp s
  conv_rhs => rw [hs]
  exact (pySplitWs_sandwich _ ha hb).symm

theorem substr_pyPathJoin (a b : Str) : IsSubstr b (pyPathJoin a b) := by
  rw [pyPathJoin]
  split_ifs
  · exact IsSubstr.refl b
  · exact IsSubstr.refl b
  · exact ⟨a, [], by simp⟩
  · exact ⟨a ++ "/".data, [], by simp [List.append_assoc]⟩

theorem pyStrip_ne_nil_of_mem {s : Str} {c : Char} (hc : c ∈ s) (hw : isPyWs c = false) :
    pyStrip s ≠ [] := by
  intro h0
  obtain ⟨a, b, hs, ha, hb⟩ := pyStrip_decomp s
  rw [h0] at hs
  simp only [List.append_nil] at hs
  rw [hs] at hc
  rcases List.mem_append.1 hc with h | h
  · rw [ha c h] at hw; exact absurd hw (by simp)
  · rw [hb c h] at hw; exact absurd hw (by simp)

theorem parse_of_parts {hashF : Str → Nat} {line m h d mo w : Str} {tl : List Str}
    (hparts : pySplitWs (pyStrip (lstripHS line)) = m :: h :: d :: mo :: w :: tl)
    (htl : tl ≠ []) :
    parse_crontab_line hashF line = some
      { id := pyId hashF line, minute := m, hour := h, day := d, month := mo, weekday := w,
        action := if occursIn "up".data (pyJoin " ".data tl) = true then "on".data
                  else if occursIn "check_and_off".data (pyJoin " ".data tl) = true
                  then "off".data else "off".data,
        command := pyJoin " ".data tl,
        enabled := !(isPre "#".data (pyStrip line)), raw := line } := by
  rw [parse_crontab_line, hparts]
  have hlen : ¬ (m :: h :: d :: mo :: w :: tl).length < 6 := by
    cases tl with
    | nil => exact absurd rfl htl
    | cons a b => simp only [List.length_cons]; omega
  rw [if_neg hlen]
  simp [List.getD]

/-- **C10** (corrected; original refuted by `C10_counterexample`): for a
schedule whose five time fields are non-empty whitespace-free strings, whose
minute field additionally does not start with `'#'`, whose action is `'on'`
or `'off'`, whose off-action script path contains no `'up'` substring and
whose on-action command contains `'up'`, `parse_crontab_line` applied to
`build_crontab_line` of the schedule returns a record with the same minute,
hour, day, month, weekday, enabled and action values as the input. -/
theorem C10_build_parse_round_trip (hashF : Str → Nat) (sd : Str) (s : NewSchedule)
    (hm : s.minute ≠ [] ∧ ∀ c ∈ s.minute, isPyWs c = false)
    (hh : s.hour ≠ [] ∧ ∀ c ∈ s.hour, isPyWs c = false)
    (hd : s.day ≠ [] ∧ ∀ c ∈ s.day, isPyWs c = false)
    (hmo : s.month ≠ [] ∧ ∀ c ∈ s.month, isPyWs c = false)
    (hw : s.weekday ≠ [] ∧ ∀ c ∈ s.weekday, isPyWs c = false)
    (hnohash : isPre "#".data s.minute = false)
    (hact : s.action = "on".data ∨ s.action = "off".data)
    (hoff : s.action = "off".data →
      occursIn "up".data (pyPathJoin sd "check_and_off.sh".data) = false)
    (hon : s.action = "on".data → occursIn "up".data (s.command.getD defaultUpCmd) = true) :
    ∃ r, parse_crontab_line hashF (build_crontab_line sd s) = some r ∧
      r.minute = s.minute ∧ r.hour = s.hour ∧ r.day = s.day ∧ r.month = s.month ∧
      r.weekday = s.weekday ∧ r.enabled = s.enabled ∧ r.action = s.action := by
  have hkey : ∃ cmd : Str,
      build_crontab_line sd s =
        (if !s.enabled then
          "# ".data ++ (s.minute ++ " ".data ++ s.hour ++ " ".data ++ s.day ++ " ".data ++
            s.month ++ " ".data ++ s.weekday ++ " ".data ++ cmd)
        else
          s.minute ++ " ".data ++ s.hour ++ " ".data ++ s.day ++ " ".data ++
            s.month ++ " ".data ++ s.weekday ++ " ".data ++ cmd) ∧
      (occursIn "up".data (pyJoin " ".data (pySplitWs cmd)) = true ↔ s.action = "on".data) ∧
      pySplitWs cmd ≠ [] := by
    refine ⟨if s.action = "off".data then pyPathJoin sd "check_and_off.sh".data
        else s.command.getD defaultUpCmd, by rw [build_crontab_line], ?_, ?_⟩
    · by_cases ha : s.action = "off".data
      · rw [if_pos ha]
        constructor
        · intro hocc
          exfalso
          obtain ⟨x, hx, hpx⟩ :=
            substr_pyJoin_sep (by decide) (by decide) _ (occursIn_iff.1 hocc)
          have hxsub := (mem_pySplitWs _ hx).2.2
          have hsub : occursIn "up".data (pyPathJoin sd "check_and_off.sh".data) = true :=
            occursIn_iff.2 (hpx.trans hxsub)
          rw [hoff ha] at hsub
          exact absurd hsub (by simp)
        · intro hon'
          rw [hon'] at ha
          exact absurd ha (by decide)
      · have haon : s.action = "on".data := hact.resolve_right ha
        rw [if_neg ha]
        constructor
        · intro _; exact haon
        · intro _
          obtain ⟨x, hx, hpx⟩ :=
            pySplitWs_substr_token (by decide) (by decide) _ (occursIn_iff.1 (hon haon))
          exact occursIn_iff.2 (hpx.trans (substr_pyJoin_of_mem " ".data _ hx))
    · by_cases ha : s.action = "off".data
      · rw [if_pos ha]
        obtain ⟨x, hx, -⟩ := pySplitWs_substr_token (by decide) (by decide) _
          (substr_pyPathJoin sd "check_and_off.sh".data)
        intro h0
        rw [h0] at hx
        simp at hx
      · have haon : s.action = "on".data := hact.resolve_right ha
        rw [if_neg ha]
        obtain ⟨x, hx, -⟩ := pySplitWs_substr_token (by decide) (by decide) _
          (occursIn_iff.1 (hon haon))
        intro h0
        rw [h0] at hx
        simp at hx
  obtain ⟨cmd, hbeq, hup, htlne⟩ := hkey
  set L : Str := s.minute ++ " ".data ++ s.hour ++ " ".data ++ s.day ++ " ".data ++
      s.month ++ " ".data ++ s.weekday ++ " ".data ++ cmd with hLdef
  obtain ⟨c0, m', hm0⟩ := List.exists_cons_of_ne_nil hm.1
  have hc0w : isPyWs c0 = false := hm.2 c0 (by rw [hm0]; exact List.mem_cons_self _ _)
  have hc0h : ('#' : Char) ≠ c0 := by
    rw [hm0, isPre_hash_cons] at hnohash
    simpa using hnohash
  have hq0 : (c0 == '#' || c0 == ' ') = false := qchar_false (Ne.symm hc0h) hc0w
  have hLhead : L.head? = some c0 := by
    rw [hLdef, hm0]
    simp [List.append_assoc]
  have hlstL : lstripHS L = L :=
    dropWhile_eq_self_of_head (fun c hc => by
      rw [hLhead] at hc
      exact (Option.some.inj hc) ▸ hq0)
  have hsplitL : pySplitWs L =
      s.minute :: s.hour :: s.day :: s.month :: s.weekday :: pySplitWs cmd := by
    rw [hLdef]
    simp only [str_data_space, List.append_assoc, List.singleton_append, List.cons_append,
      List.nil_append]
    rw [pySplitWs_token_sep _ hm.1 hm.2, pySplitWs_token_sep _ hh.1 hh.2,
      pySplitWs_token_sep _ hd.1 hd.2, pySplitWs_token_sep _ hmo.1 hmo.2,
      pySplitWs_token_sep _ hw.1 hw.2]
  have hparts : pySplitWs (pyStrip (lstripHS (build_crontab_line sd s))) =
      s.minute :: s.hour :: s.day :: s.month :: s.weekday :: pySplitWs cmd := by
    rw [pySplitWs_strip, hbeq]
    cases hen : s.enabled with
    | true =>
      simp only [hen, Bool.not_true]
      rw [if_neg (by simp), hlstL, hsplitL]
    | false =>
      simp only [hen, Bool.not_false]
      rw [if_pos trivial]
      show pySplitWs (lstripHS ('#' :: ' ' :: L)) = _
      rw [lstripHS_hash_space, hlstL, hsplitL]
  have henb : (!(isPre "#".data (pyStrip (build_crontab_line sd s)))) = s.enabled := by
    rw [hbeq]
    cases hen : s.enabled with
    | true =>
      simp only [hen, Bool.not_true]
      rw [if_neg (by simp)]
      by_cases h0 : pyStrip L = []
      · rw [h0]
        decide
      · have hdw : L.dropWhile isPyWs = L := dropWhile_eq_self_of_head (fun c hc => by
          rw [hLhead] at hc
          exact (Option.some.inj hc) ▸ hc0w)
        have hh2 : (pyStrip L).head? = some c0 := by
          rw [pyStrip, hdw, dropWhileEnd_head? (by rw [pyStrip, hdw] at h0; exact h0), hLhead]
        obtain ⟨e, es, he⟩ := List.exists_cons_of_ne_nil h0
        rw [he] at hh2
        have hec : e = c0 := by simpa using hh2
        rw [he, isPre_hash_cons, hec]
        simp [hc0h]
    | false =>
      simp only [hen, Bool.not_false]
      rw [if_pos trivial]
      show (!(isPre "#".data (pyStrip ('#' :: ' ' :: L)))) = false
      have hne0 : pyStrip ('#' :: ' ' :: L) ≠ [] :=
        pyStrip_ne_nil_of_mem (List.mem_cons_self '#' (' ' :: L)) (by decide)
      have hdw : ('#' :: ' ' :: L).dropWhile isPyWs = '#' :: ' ' :: L :=
        dropWhile_eq_self_of_head (fun c hc => by
          rw [show (('#' : Char) :: ' ' :: L).head? = some '#' from rfl] at hc
          exact (Option.some.inj hc) ▸ (by decide : isPyWs '#' = false))
      have hh2 : (pyStrip ('#' :: ' ' :: L)).head? = some '#' := by
        rw [pyStrip, hdw, dropWhileEnd_head? (by rw [pyStrip, hdw] at hne0; exact hne0)]
        rfl
      obtain ⟨e, es, he⟩ := List.exists_cons_of_ne_nil hne0
      rw [he] at hh2
      have hec : e = '#' := by simpa using hh2
      rw [he, isPre_hash_cons, hec]
      simp
  have hactr : (if occursIn "up".data (pyJoin " ".data (pySplitWs cmd)) = true
      then "on".data
      else if occursIn "check_and_off".data (pyJoin " ".data (pySplitWs cmd)) = true
      then "off".data else "off".data) = s.action := by
    by_cases ha : s.action = "on".data
    · rw [if_pos (hup.2 ha), ha]
    · have haof : s.action = "off".data := hact.resolve_left ha
      rw [if_neg (fun hc => ha (hup.1 hc)), ite_self, haof]
  exact ⟨_, parse_of_parts hparts htlne, rfl, rfl, rfl, rfl, rfl, henb, hactr⟩

/-- Counterexample to C10 as stated: minute `"#5"` is a non-empty
whitespace-free field, and the schedule's on-action command contains `'up'`,
yet the built line `#5 1 * * * /sbin/ip link set ens1 up` parses back as
disabled with minute `"5"` — both the `enabled` and the `minute` value
differ from the input schedule's. -/
theorem C10_counterexample :
    ("#5".data : Str) ≠ [] ∧ (∀ c ∈ ("#5".data : Str), isPyWs c = false) ∧
    occursIn "up".data defaultUpCmd = true ∧
    (parse_crontab_line demoHash
        (build_crontab_line "/opt/iptvctl".data
          { minute := "#5".data, hour := "1".data, day := "*".data, month := "*".data,
            weekday := "*".data, action := "on".data, command := some defaultUpCmd,
            enabled := true })).map (fun r => (r.enabled, r.minute)) =
      some (false, "5".data) :=
  ⟨by decide, by decide, by decide, by decide⟩

/-- Witness for C10 on the schedule `0 5 * * 1`, action `on`, default
command, enabled. -/
theorem C10_witness :
    ∃ r, parse_crontab_line demoHash
        (build_crontab_line "/opt/iptvctl".data
          { minute := "0".data, hour := "5".data, day := "*".data, month := "*".data,
            weekday := "1".data, action := "on".data, command := some defaultUpCmd,
            enabled := true }) = some r ∧
      r.minute = "0".data ∧ r.hour = "5".data ∧ r.day = "*".data ∧ r.month = "*".data ∧
      r.weekday = "1".data ∧ r.enabled = true ∧ r.action = "on".data :=
  C10_build_parse_round_trip demoHash "/opt/iptvctl".data
    { minute := "0".data, hour := "5".data, day := "*".data, month := "*".data,
      weekday := "1".data, action := "on".data, command := some defaultUpCmd,
      enabled := true }
    (by decide) (by decide) (by decide) (by decide) (by decide) (by decide)
    (Or.inl rfl) (fun hc => absurd hc (by decide)) (fun _ => by decide)

/-! ## Lemmas: domain-line containment -/

theorem single_substr_iff_mem {c : Char} {s : Str} : IsSubstr [c] s ↔ c ∈ s := by
  constructor
  · rintro ⟨a, b, rfl⟩
    simp
  · intro h
    obtain ⟨a, b, hab⟩ := List.append_of_mem h
    exact ⟨a, b, by rw [hab]; simp⟩

theorem mem_replaceAll_single_nil {c c0 : Char} :
    ∀ s : Str, c ∈ replaceAll [c0] [] s → c ∈ s := by
  intro s
  induction s using replaceAll_ind [c0] [] with
  | case1 => simp [replaceAll_nil]
  | case2 d rest hg ih =>
    simp only [List.length_cons, List.length_nil, List.drop_succ_cons, List.drop_zero] at ih
    rw [replaceAll_cons_pos hg, List.nil_append]
    simp only [List.length_cons, List.length_nil, List.drop_succ_cons, List.drop_zero]
    intro h
    exact List.mem_cons_of_mem d (ih h)
  | case3 d rest hg ih =>
    rw [replaceAll_cons_neg [] hg]
    intro h
    rcases List.mem_cons.1 h with rfl | h'
    · exact List.mem_cons_self _ _
    · exact List.mem_cons_of_mem d (ih h')

theorem not_mem_replaceAll_single_nil {c0 : Char} :
    ∀ s : Str, c0 ∉ replaceAll [c0] [] s := by
  intro s
  induction s using replaceAll_ind [c0] [] with
  | case1 => simp [replaceAll_nil]
  | case2 d rest hg ih =>
    simp only [List.length_cons, List.length_nil, List.drop_succ_cons, List.drop_zero] at ih
    rw [replaceAll_cons_pos hg, List.nil_append]
    simpa only [List.length_cons, List.length_nil, List.drop_succ_cons, List.drop_zero]
      using ih
  | case3 d rest hg ih =>
    rw [replaceAll_cons_neg [] hg]
    intro h
    rcases List.mem_cons.1 h with he | h'
    · exact hg ⟨by simp, by simp [isPre, he]⟩
    · exact ih h'

theorem substr_of_append_left_all {q : Char → Bool} {m a x : Str}
    (ha : ∀ c ∈ a, q c = true) (hm : ∀ c, m.head? = some c → q c = false) (hne : m ≠ []) :
    IsSubstr m (a ++ x) → IsSubstr m x := by
  induction a with
  | nil => intro h; simpa using h
  | cons d a' ih =>
    intro h
    rw [List.cons_append] at h
    rcases h.cons_elim with ⟨t, ht⟩ | h'
    · cases m with
      | nil => exact absurd rfl hne
      | cons e m' =>
        rw [List.cons_append] at ht
        have hde : d = e := (List.cons.inj ht).1
        have hqe := hm e rfl
        rw [← hde] at hqe
        rw [ha d (List.mem_cons_self d a')] at hqe
        exact absurd hqe (by simp)
    · exact ih (fun c hc => ha c (List.mem_cons_of_mem d hc)) h'

theorem replaceAll_id (old : Str) : ∀ s, replaceAll old old s = s := by
  intro s
  induction s using replaceAll_ind old old with
  | case1 => exact replaceAll_nil old old
  | case2 c rest hg ih =>
    obtain ⟨t, ht⟩ := isPre_iff.1 hg.2
    rw [replaceAll_cons_pos hg, ih, ht, List.drop_left]
  | case3 c rest hg ih => rw [replaceAll_cons_neg old hg, ih]

theorem markerUp_head : ∀ c, markerUp.head? = some c → isPyWs c = false := by
  intro c hc
  rw [show markerUp.head? = some 'i' from rfl] at hc
  rw [← Option.some.inj hc]
  decide

theorem markerUp_last : ∀ c, markerUp.getLast? = some c → isPyWs c = false := by
  intro c hc
  rw [show markerUp.getLast? = some '1' by decide] at hc
  rw [← Option.some.inj hc]
  decide

theorem markerOffScript_head : ∀ c, markerOffScript.head? = some c → isPyWs c = false := by
  intro c hc
  rw [show markerOffScript.head? = some 'c' from rfl] at hc
  rw [← Option.some.inj hc]
  decide

theorem markerOffScript_last : ∀ c, markerOffScript.getLast? = some c → isPyWs c = false := by
  intro c hc
  rw [show markerOffScript.getLast? = some 'h' by decide] at hc
  rw [← Option.some.inj hc]
  decide

theorem markerUp_head_q : ∀ c, markerUp.head? = some c → (c == '#' || c == ' ') = false := by
  intro c hc
  rw [show markerUp.head? = some 'i' from rfl] at hc
  rw [← Option.some.inj hc]
  decide

theorem markerOffScript_head_q :
    ∀ c, markerOffScript.head? = some c → (c == '#' || c == ' ') = false := by
  intro c hc
  rw [show markerOffScript.head? = some 'c' from rfl] at hc
  rw [← Option.some.inj hc]
  decide

theorem pyCleanLine_pyStrip (l : Str) : pyCleanLine (pyStrip l) = pyCleanLine l := by
  obtain ⟨a, b, hl, ha, hb⟩ := pyStrip_decomp l
  have hda : replaceAll ['#'] [] a = a := replaceAll_of_not_substr (fun hs => by
    have := ha '#' (single_substr_iff_mem.1 hs)
    exact absurd this (by decide))
  have hdb : replaceAll ['#'] [] b = b := replaceAll_of_not_substr (fun hs => by
    have := hb '#' (single_substr_iff_mem.1 hs)
    exact absurd this (by decide))
  conv_rhs => rw [pyCleanLine, str_data_hash, hl, replaceAll_single_append,
    replaceAll_single_append, hda, hdb]
  rw [pyCleanLine, str_data_hash]
  exact (pyStrip_sandwich _ ha hb).symm

theorem rel_of_substr {p l : Str} (hsub : IsSubstr p l) (hrel : lineRelevant p = true) :
    lineRelevant (pyStrip l) = true := by
  obtain ⟨a, b, hl⟩ := hsub
  have hdel : ∀ x : Str, IsSubstr x (replaceAll ['#'] [] p) →
      IsSubstr x (replaceAll "#".data [] l) := by
    intro x hx
    rw [str_data_hash, hl, replaceAll_single_append, replaceAll_single_append]
    exact hx.extend (replaceAll ['#'] [] a) (replaceAll ['#'] [] b)
  have hcl : pyCleanLine (pyStrip l) = pyStrip (replaceAll "#".data [] l) := by
    rw [pyCleanLine_pyStrip, pyCleanLine]
  simp only [lineRelevant, Bool.or_eq_true] at hrel ⊢
  rcases hrel with ((h1 | h2) | h3) | h4
  · refine Or.inl (Or.inl (Or.inl ?_))
    rw [occursIn_iff] at h1 ⊢
    exact substr_pyStrip (h1.trans ⟨a, b, hl⟩) markerUp_head markerUp_last
  · refine Or.inl (Or.inl (Or.inr ?_))
    rw [occursIn_iff] at h2 ⊢
    rw [hcl]
    have h2' : IsSubstr markerUp (replaceAll ['#'] [] p) := by
      have := h2.trans (pyStrip_substr (replaceAll "#".data [] p))
      rwa [str_data_hash] at this
    exact substr_pyStrip (hdel _ h2') markerUp_head markerUp_last
  · refine Or.inl (Or.inr ?_)
    rw [occursIn_iff] at h3 ⊢
    exact substr_pyStrip (h3.trans ⟨a, b, hl⟩) markerOffScript_head markerOffScript_last
  · refine Or.inr ?_
    rw [occursIn_iff] at h4 ⊢
    rw [hcl]
    have h4' : IsSubstr markerOffScript (replaceAll ['#'] [] p) := by
      have := h4.trans (pyStrip_substr (replaceAll "#".data [] p))
      rwa [str_data_hash] at this
    exact substr_pyStrip (hdel _ h4') markerOffScript_head markerOffScript_last

theorem lineRelevant_lstripHS {l : Str} (hrel : lineRelevant l = true) :
    lineRelevant (lstripHS l) = true := by
  obtain ⟨a, hl, ha⟩ := dropWhile_decomp (fun c => c == '#' || c == ' ') l
  have hclean : pyCleanLine (lstripHS l) = pyCleanLine l := by
    conv_rhs => rw [pyCleanLine, str_data_hash, hl, replaceAll_single_append]
    rw [pyCleanLine, str_data_hash]
    have hws : ∀ c ∈ replaceAll ['#'] [] a, isPyWs c = true := by
      intro c hc
      have hqa := ha c (mem_replaceAll_single_nil a hc)
      have hch : c ≠ '#' := fun he => by
        rw [he] at hc
        exact not_mem_replaceAll_single_nil a hc
      simp only [Bool.or_eq_true, beq_iff_eq] at hqa
      rcases hqa with h | h
      · exact absurd h hch
      · rw [h]; decide
    exact (pyStrip_ws_left _ hws).symm
  simp only [lineRelevant, Bool.or_eq_true] at hrel ⊢
  rcases hrel with ((h1 | h2) | h3) | h4
  · refine Or.inl (Or.inl (Or.inl ?_))
    rw [occursIn_iff] at h1 ⊢
    rw [hl] at h1
    exact substr_of_append_left_all ha markerUp_head_q (by decide) h1
  · refine Or.inl (Or.inl (Or.inr ?_))
    rw [hclean]
    exact h2
  · refine Or.inl (Or.inr ?_)
    rw [occursIn_iff] at h3 ⊢
    rw [hl] at h3
    exact substr_of_append_left_all ha markerOffScript_head_q (by decide) h3
  · refine Or.inr ?_
    rw [hclean]
    exact h4

theorem lstripHS_ne_nil_of_rel {l : Str} (hrel : lineRelevant l = true) : lstripHS l ≠ [] := by
  intro h0
  have h1 := lineRelevant_lstripHS hrel
  rw [h0] at h1
  exact absurd h1 (by decide)

theorem filter_tableLines {P : Str → Bool} (hP : P [] = false) (t : Str) :
    (tableLines t).filter P = (pySplit '\n' t).filter P := by
  rw [tableLines]
  by_cases h : (pySplit '\n' t).getLast? = some []
  · rw [if_pos h]
    have hne : pySplit '\n' t ≠ [] := pySplit_ne_nil '\n' t
    have hl : (pySplit '\n' t).getLast hne = [] := by
      have h2 := List.getLast?_eq_getLast (pySplit '\n' t) hne
      rw [h2] at h
      exact Option.some.inj h
    conv_rhs => rw [← List.dropLast_append_getLast hne, List.filter_append, hl]
    simp [hP]
  · rw [if_neg h]

theorem pySplit_getLast_ne_nil {t : Str} (hne : t ≠ [])
    (hsuf : ¬ isSuf "\n".data t = true) : (pySplit '\n' t).getLast? ≠ some [] := by
  intro h
  have hne2 : pySplit '\n' t ≠ [] := pySplit_ne_nil '\n' t
  have hl : (pySplit '\n' t).getLast hne2 = [] := by
    have h2 := List.getLast?_eq_getLast (pySplit '\n' t) hne2
    rw [h2] at h
    exact Option.some.inj h
  have hjoin := pyJoin_pySplit '\n' t
  rw [← List.dropLast_append_getLast hne2, hl] at hjoin
  by_cases hdrop : (pySplit '\n' t).dropLast = []
  · rw [hdrop] at hjoin
    simp [pyJoin] at hjoin
    exact absurd hjoin hne
  · rw [pyJoin_append_single _ hdrop] at hjoin
    apply hsuf
    rw [isSuf_iff, str_data_nl]
    refine ⟨pyJoin ['\n'] (pySplit '\n' t).dropLast, ?_⟩
    conv_lhs => rw [← hjoin]
    simp

theorem dropLast_map {α β : Type} (f : α → β) : ∀ l : List α, (l.map f).dropLast = l.dropLast.map f := by
  intro l
  induction l with
  | nil => rfl
  | cons x xs ih =>
    cases xs with
    | nil => rfl
    | cons y ys =>
      have h1 : (List.map f (x :: y :: ys)).dropLast = f x :: (List.map f (y :: ys)).dropLast := rfl
      have h2 : (x :: y :: ys).dropLast.map f = f x :: ((y :: ys).dropLast.map f) := rfl
      rw [h1, h2, ih]

theorem add_schedule_tableLines {sd : Str} {sched : NewSchedule} {t : Str}
    (hnl : '\n' ∉ build_crontab_line sd sched) :
    ∀ t1, add_schedule sd sched t = some t1 →
      tableLines t1 = tableLines t ++ [build_crontab_line sd sched] := by
  intro t1 h1
  rw [add_schedule] at h1
  have h2 := Option.some.inj h1
  subst h2
  by_cases hpad : t ≠ [] ∧ ¬ isSuf "\n".data t = true
  · rw [if_pos hpad]
    have hsplit : pySplit '\n' ((t ++ "\n".data) ++ build_crontab_line sd sched ++ "\n".data) =
        pySplit '\n' t ++ [build_crontab_line sd sched, []] := by
      rw [str_data_nl]
      rw [show (t ++ ['\n']) ++ build_crontab_line sd sched ++ ['\n'] =
        t ++ '\n' :: (build_crontab_line sd sched ++ ['\n']) by simp]
      rw [pySplit_append_sep,
        show (build_crontab_line sd sched ++ ['\n'] : Str) =
          build_crontab_line sd sched ++ '\n' :: [] by simp,
        pySplit_append_sep, pySplit_no_sep hnl]
      rfl
    rw [tableLines, hsplit, tableLines]
    rw [show pySplit '\n' t ++ [build_crontab_line sd sched, []] =
      (pySplit '\n' t ++ [build_crontab_line sd sched]) ++ [[]] by simp]
    rw [if_pos (by rw [List.getLast?_concat]), List.dropLast_concat,
      if_neg (pySplit_getLast_ne_nil hpad.1 hpad.2)]
  · rw [if_neg hpad]
    rcases Decidable.not_and_iff_or_not.1 hpad with hteq | hsuf
    · obtain rfl : t = [] := by
        by_cases h : t = []
        · exact h
        · exact absurd h hteq
      have hsplit : pySplit '\n' (([] : Str) ++ build_crontab_line sd sched ++ "\n".data) =
          [build_crontab_line sd sched, []] := by
        rw [str_data_nl, List.nil_append,
          show (build_crontab_line sd sched ++ ['\n'] : Str) =
            build_crontab_line sd sched ++ '\n' :: [] by simp,
          pySplit_append_sep, pySplit_no_sep hnl]
        rfl
      rw [tableLines, hsplit]
      rw [show ([build_crontab_line sd sched, []] : List Str) =
        [build_crontab_line sd sched] ++ [[]] by simp]
      rw [if_pos (by rw [List.getLast?_concat]), List.dropLast_concat]
      rfl
    · have hsuf2 : isSuf "\n".data t = true := by
        by_cases h : isSuf "\n".data t = true
        · exact h
        · exact absurd h (by simpa using hsuf)
      obtain ⟨t0, rfl⟩ := isSuf_iff.1 hsuf2
      have hsplit : pySplit '\n' ((t0 ++ "\n".data) ++ build_crontab_line sd sched ++ "\n".data) =
          pySplit '\n' t0 ++ [build_crontab_line sd sched, []] := by
        rw [str_data_nl]
        rw [show (t0 ++ ['\n']) ++ build_crontab_line sd sched ++ ['\n'] =
          t0 ++ '\n' :: (build_crontab_line sd sched ++ ['\n']) by simp]
        rw [pySplit_append_sep,
          show (build_crontab_line sd sched ++ ['\n'] : Str) =
            build_crontab_line sd sched ++ '\n' :: [] by simp,
          pySplit_append_sep, pySplit_no_sep hnl]
        rfl
      have hsplit0 : pySplit '\n' (t0 ++ "\n".data) = pySplit '\n' t0 ++ [[]] := by
        rw [str_data_nl, show (t0 ++ ['\n'] : Str) = t0 ++ '\n' :: [] by simp,
          pySplit_append_sep]
        rfl
      rw [tableLines, hsplit, tableLines, hsplit0]
      rw [show pySplit '\n' t0 ++ [build_crontab_line sd sched, []] =
        (pySplit '\n' t0 ++ [build_crontab_line sd sched]) ++ [[]] by simp]
      rw [if_pos (by rw [List.getLast?_concat]), List.dropLast_concat,
        if_pos (by rw [List.getLast?_concat]), List.dropLast_concat]

theorem filter_map_id_of {f : Str → Str} {P : Str → Bool} :
    ∀ ls : List Str, (∀ l ∈ ls, (P l = false ∧ P (f l) = false) ∨ f l = l) →
      (ls.map f).filter P = ls.filter P := by
  intro ls
  induction ls with
  | nil => intro _; rfl
  | cons x xs ih =>
    intro h
    rw [List.map_cons, List.filter_cons, List.filter_cons]
    have htail := ih (fun l hl => h l (List.mem_cons_of_mem x hl))
    rcases h x (List.mem_cons_self x xs) with ⟨h1, h2⟩ | h3
    · rw [h1, h2, if_neg (by simp), if_neg (by simp), htail]
    · rw [h3, htail]

theorem toggle_core {old new t : Str} (hold : old ≠ []) (hso : '\n' ∉ old)
    (hnew : new ≠ []) (hsn : '\n' ∉ new)
    (hrelold : lineRelevant old = true) (hrelnew : lineRelevant new = true) :
    nonDomainLines (replaceAll old new t) = nonDomainLines t := by
  have hsplit := replaceAll_pySplit hold hso hsn t
  have hnil : ∀ x : Str, replaceAll old new x = [] ↔ x = [] := by
    intro x
    constructor
    · intro h
      by_contra hx
      exact replaceAll_ne_nil hnew hx h
    · rintro rfl
      exact replaceAll_nil old new
  have htab : tableLines (replaceAll old new t) = (tableLines t).map (replaceAll old new) := by
    rw [tableLines, tableLines, hsplit]
    by_cases hc : (pySplit '\n' t).getLast? = some []
    · have hc2 : ((pySplit '\n' t).map (replaceAll old new)).getLast? = some [] := by
        rw [List.getLast?_map, hc]
        simp [replaceAll_nil]
      rw [if_pos hc2, if_pos hc, dropLast_map]
    · have hc2 : ¬ ((pySplit '\n' t).map (replaceAll old new)).getLast? = some [] := by
        rw [List.getLast?_map]
        intro hx
        obtain ⟨x, hx1, hx2⟩ := Option.map_eq_some'.1 hx
        have hx0 : x = [] := (hnil x).1 hx2
        rw [hx0] at hx1
        exact hc hx1
      rw [if_neg hc2, if_neg hc]
  rw [nonDomainLines, nonDomainLines, htab]
  apply filter_map_id_of
  intro l hl
  by_cases hocc : occursIn old l = true
  · left
    have hsubl : IsSubstr old l := occursIn_iff.1 hocc
    constructor
    · show (!(lineRelevant (pyStrip l))) = false
      rw [rel_of_substr hsubl hrelold]
      rfl
    · show (!(lineRelevant (pyStrip (replaceAll old new l)))) = false
      rw [rel_of_substr (replaceAll_new_substr hold hsubl) hrelnew]
      rfl
  · right
    exact replaceAll_of_not_substr (fun hs => hocc (occursIn_iff.2 hs))

theorem toggle_nonDomain {hashF : Str → Nat} {t : Str} {sid : Nat} :
    ∀ t1, toggle_schedule hashF t sid = some t1 → nonDomainLines t1 = nonDomainLines t := by
  intro t1 h1
  simp only [toggle_schedule] at h1
  cases hfind : (extract_iptv_schedules hashF t).find? (fun s => s.id == sid) with
  | none => rw [hfind] at h1; exact absurd h1 (by simp)
  | some target =>
    simp only [hfind] at h1
    have htmem := List.mem_of_find?_eq_some hfind
    obtain ⟨hstrip, hne, hrel, hparse, hnlraw⟩ := mem_extract htmem
    have henb := extract_enabled htmem
    cases htgt : target.enabled with
    | false =>
      have hnewdef : (if !target.enabled then lstripHS target.raw
          else if ¬ isPre "#".data (pyStrip target.raw) = true then "# ".data ++ target.raw
          else target.raw) = lstripHS target.raw := by
        rw [htgt]
        simp
      rw [hnewdef] at h1
      have h2 := Option.some.inj h1
      subst h2
      exact toggle_core hne hnlraw (lstripHS_ne_nil_of_rel hrel)
        (fun hc => hnlraw ((List.dropWhile_sublist _).subset hc))
        hrel (lineRelevant_lstripHS hrel)
    | true =>
      have hpre : isPre "#".data (pyStrip target.raw) = false := by
        rw [htgt] at henb
        rw [hstrip]
        simpa using henb.symm
      have hnewdef : (if !target.enabled then lstripHS target.raw
          else if ¬ isPre "#".data (pyStrip target.raw) = true then "# ".data ++ target.raw
          else target.raw) = "# ".data ++ target.raw := by
        rw [htgt, hpre]
        simp
      rw [hnewdef] at h1
      have h2 := Option.some.inj h1
      subst h2
      have hrelnew : lineRelevant ("# ".data ++ target.raw) = true := by
        rw [str_data_hash_space]
        exact lineRelevant_hash_space hrel
      have hnlnew : '\n' ∉ "# ".data ++ target.raw := by
        rw [str_data_hash_space]
        intro hc
        rcases List.mem_append.1 hc with h | h
        · simp at h
        · exact hnlraw h
      exact toggle_core hne hnlraw (by simp [str_data_hash_space]) hnlnew hrel hrelnew

theorem delete_nonBlank {hashF : Str → Nat} {t : Str} {sid : Nat} :
    ∀ t1, delete_schedule hashF t sid = some t1 →
      nonBlankNonDomainLines t1 = nonBlankNonDomainLines t := by
  intro t1 h1
  simp only [delete_schedule] at h1
  cases hfind : (extract_iptv_schedules hashF t).find? (fun s => s.id == sid) with
  | none => rw [hfind] at h1; exact absurd h1 (by simp)
  | some target =>
    simp only [hfind] at h1
    have h2 := Option.some.inj h1
    subst h2
    have htmem := List.mem_of_find?_eq_some hfind
    obtain ⟨hstrip, hne, hrel, hparse, hnlraw⟩ := mem_extract htmem
    rw [nonBlankNonDomainLines, nonBlankNonDomainLines,
      filter_tableLines rfl, filter_tableLines rfl]
    have hPfalse : ∀ l : Str, occursIn target.raw l = true →
        ((!l.isEmpty) && !(lineRelevant (pyStrip l))) = false := by
      intro l hocc
      rw [rel_of_substr (occursIn_iff.1 hocc) hrel]
      simp
    by_cases hkept : (pySplit '\n' t).filter (fun line => !occursIn target.raw line) = []
    · rw [hkept]
      have hR : (pySplit '\n' t).filter
          (fun l => (!l.isEmpty) && !(lineRelevant (pyStrip l))) = [] := by
        rw [List.filter_eq_nil_iff]
        intro l hl hPl
        cases hocc : occursIn target.raw l with
        | true =>
          rw [hPfalse l hocc] at hPl
          exact absurd hPl (by simp)
        | false =>
          have hmem : l ∈ (pySplit '\n' t).filter (fun line => !occursIn target.raw line) :=
            List.mem_filter.2 ⟨hl, by simp [hocc]⟩
          rw [hkept] at hmem
          simp at hmem
      rw [hR]
      decide
    · rw [pySplit_pyJoin hkept (fun p hp => mem_pySplit_not_sep (List.mem_of_mem_filter hp)),
        List.filter_filter]
      apply List.filter_congr
      intro l hl
      cases hocc : occursIn target.raw l with
      | true =>
        rw [hPfalse l hocc]
        simp
      | false =>
        simp [hocc]

theorem not_mem_pyPathJoin {c : Char} {a b : Str} (h1 : c ∉ a) (h2 : c ∉ b)
    (h3 : c ≠ '/') : c ∉ pyPathJoin a b := by
  rw [pyPathJoin]
  split_ifs <;> intro hc
  · exact h2 hc
  · exact h2 hc
  · rcases List.mem_append.1 hc with h | h
    · exact h1 h
    · exact h2 h
  · rcases List.mem_append.1 hc with h | h
    · rcases List.mem_append.1 h with h' | h'
      · exact h1 h'
      · rw [show ("/".data : Str) = ['/'] from rfl] at h'
        exact h3 (List.mem_singleton.1 h')
    · exact h2 h

theorem build_not_mem {sd : Str} {s : NewSchedule} {c : Char}
    (h1 : c ∉ s.minute) (h2 : c ∉ s.hour) (h3 : c ∉ s.day) (h4 : c ∉ s.month)
    (h5 : c ∉ s.weekday)
    (h6 : c ∉ (if s.action = "off".data then pyPathJoin sd "check_and_off.sh".data
      else s.command.getD defaultUpCmd))
    (hc1 : c ≠ ' ') (hc2 : c ≠ '#') :
    c ∉ build_crontab_line sd s := by
  rw [build_crontab_line]
  have hline : c ∉ s.minute ++ " ".data ++ s.hour ++ " ".data ++ s.day ++ " ".data ++
      s.month ++ " ".data ++ s.weekday ++ " ".data ++
      (if s.action = "off".data then pyPathJoin sd "check_and_off.sh".data
       else s.command.getD defaultUpCmd) := by
    intro hm
    simp only [str_data_space, List.mem_append, List.mem_singleton] at hm
    tauto
  cases hen : s.enabled with
  | true =>
    simp only [hen, Bool.not_true]
    rw [if_neg (by simp)]
    exact hline
  | false =>
    simp only [hen, Bool.not_false]
    rw [if_pos trivial]
    intro hc
    rcases List.mem_append.1 hc with h | h
    · have h2' : c ∈ (['#', ' '] : Str) := h
      rcases List.mem_cons.1 h2' with rfl | h'
      · exact hc2 rfl
      · rcases List.mem_cons.1 h' with rfl | h''
        · exact hc1 rfl
        · simp at h''
    · exact hline h

theorem build_marker_rel {sd : Str} {s : NewSchedule} {m : Str}
    (hm : IsSubstr m (if s.action = "off".data then pyPathJoin sd "check_and_off.sh".data
        else s.command.getD defaultUpCmd))
    (hh : ∀ c, m.head? = some c → isPyWs c = false)
    (hl : ∀ c, m.getLast? = some c → isPyWs c = false)
    (hdisj : m = markerUp ∨ m = markerOffScript) :
    lineRelevant (pyStrip (build_crontab_line sd s)) = true := by
  have hline : IsSubstr m (s.minute ++ " ".data ++ s.hour ++ " ".data ++ s.day ++ " ".data ++
      s.month ++ " ".data ++ s.weekday ++ " ".data ++
      (if s.action = "off".data then pyPathJoin sd "check_and_off.sh".data
       else s.command.getD defaultUpCmd)) := by
    obtain ⟨a, b, hab⟩ := hm
    refine ⟨s.minute ++ " ".data ++ s.hour ++ " ".data ++ s.day ++ " ".data ++
      s.month ++ " ".data ++ s.weekday ++ " ".data ++ a, b, ?_⟩
    rw [hab]
    simp [List.append_assoc]
  have hbuilt : IsSubstr m (build_crontab_line sd s) := by
    rw [build_crontab_line]
    cases hen : s.enabled with
    | true =>
      simp only [hen, Bool.not_true]
      rw [if_neg (by simp)]
      exact hline
    | false =>
      simp only [hen, Bool.not_false]
      rw [if_pos trivial]
      obtain ⟨a, b, hab⟩ := hline
      exact ⟨"# ".data ++ a, b, by rw [hab]; simp [List.append_assoc]⟩
  have hstripm : IsSubstr m (pyStrip (build_crontab_line sd s)) := substr_pyStrip hbuilt hh hl
  simp only [lineRelevant, Bool.or_eq_true]
  rcases hdisj with rfl | rfl
  · exact Or.inl (Or.inl (Or.inl (occursIn_iff.2 hstripm)))
  · exact Or.inl (Or.inr (occursIn_iff.2 hstripm))

/-- **C8** (corrected; original refuted by `C8_counterexample`): the
mutating operations preserve the non-domain lines of the table, in order
and byte-for-byte, in the following precise sense: `add_schedule` (for a
newline-free domain line) and `toggle_schedule` preserve the full list of
non-domain lines, while `delete_schedule` and `update_schedule` preserve
the list of non-blank non-domain lines (a blank line adjacent to a deleted
domain line can be absorbed by the rejoin, refuting the unrestricted
original statement). -/
theorem C8_frame_preservation (hashF : Str → Nat) (sd : Str) (sched : NewSchedule)
    (u : Updates) (t : Str) (sid : Nat)
    (hnl : '\n' ∉ build_crontab_line sd sched)
    (hrel : lineRelevant (pyStrip (build_crontab_line sd sched)) = true)
    (hsd : '\n' ∉ sd)
    (hum : '\n' ∉ u.minute.getD "0".data) (huh : '\n' ∉ u.hour.getD "0".data)
    (hud : '\n' ∉ u.day.getD "*".data) (humo : '\n' ∉ u.month.getD "*".data)
    (huw : '\n' ∉ u.weekday.getD "*".data) :
    (∀ t1, add_schedule sd sched t = some t1 → nonDomainLines t1 = nonDomainLines t) ∧
    (∀ t1, delete_schedule hashF t sid = some t1 →
      nonBlankNonDomainLines t1 = nonBlankNonDomainLines t) ∧
    (∀ t1, toggle_schedule hashF t sid = some t1 → nonDomainLines t1 = nonDomainLines t) ∧
    (∀ t1, update_schedule hashF sd t sid u = some t1 →
      nonBlankNonDomainLines t1 = nonBlankNonDomainLines t) := by
  refine ⟨?_, delete_nonBlank, toggle_nonDomain, ?_⟩
  · intro t1 h1
    rw [nonDomainLines, nonDomainLines, add_schedule_tableLines hnl t1 h1, List.filter_append]
    simp [hrel]
  · intro t1 h1
    simp only [update_schedule] at h1
    cases hdel : delete_schedule hashF t sid with
    | none => rw [hdel] at h1; exact absurd h1 (by simp)
    | some t2 =>
      simp only [hdel] at h1
      have hcmdnl : '\n' ∉ (if u.action.getD "off".data = "off".data
          then pyPathJoin sd "check_and_off.sh".data
          else (some (if u.action.getD "off".data = "on".data then loggerUpCmd
            else pyPathJoin sd "check_and_off.sh".data) : Option Str).getD defaultUpCmd) := by
        have hpj : '\n' ∉ pyPathJoin sd "check_and_off.sh".data :=
          not_mem_pyPathJoin hsd (by decide) (by decide)
        split_ifs with ha hb
        · exact hpj
        · simp only [Option.getD_some]
          decide
        · simp only [Option.getD_some]
          exact hpj
      have hbnl : '\n' ∉ build_crontab_line sd
          { minute := u.minute.getD "0".data, hour := u.hour.getD "0".data,
            day := u.day.getD "*".data, month := u.month.getD "*".data,
            weekday := u.weekday.getD "*".data, action := u.action.getD "off".data,
            command := some (if u.action.getD "off".data = "on".data then loggerUpCmd
              else pyPathJoin sd "check_and_off.sh".data),
            enabled := u.enabled.getD true } :=
        build_not_mem hum huh hud humo huw hcmdnl (by decide) (by decide)
      have hbrel : lineRelevant (pyStrip (build_crontab_line sd
          { minute := u.minute.getD "0".data, hour := u.hour.getD "0".data,
            day := u.day.getD "*".data, month := u.month.getD "*".data,
            weekday := u.weekday.getD "*".data, action := u.action.getD "off".data,
            command := some (if u.action.getD "off".data = "on".data then loggerUpCmd
              else pyPathJoin sd "check_and_off.sh".data),
            enabled := u.enabled.getD true })) = true := by
        by_cases ha : u.action.getD "off".data = "off".data
        · refine build_marker_rel ?_ markerOffScript_head markerOffScript_last (Or.inr rfl)
          show IsSubstr markerOffScript (if u.action.getD "off".data = "off".data
            then pyPathJoin sd "check_and_off.sh".data
            else (some (if u.action.getD "off".data = "on".data then loggerUpCmd
              else pyPathJoin sd "check_and_off.sh".data) : Option Str).getD defaultUpCmd)
          rw [if_pos ha]
          exact substr_pyPathJoin sd "check_and_off.sh".data
        · by_cases hb : u.action.getD "off".data = "on".data
          · refine build_marker_rel ?_ markerUp_head markerUp_last (Or.inl rfl)
            show IsSubstr markerUp (if u.action.getD "off".data = "off".data
              then pyPathJoin sd "check_and_off.sh".data
              else (some (if u.action.getD "off".data = "on".data then loggerUpCmd
                else pyPathJoin sd "check_and_off.sh".data) : Option Str).getD defaultUpCmd)
            rw [if_neg ha]
            simp only [Option.getD_some]
            rw [if_pos hb]
            exact occursIn_iff.1 (by decide)
          · refine build_marker_rel ?_ markerOffScript_head markerOffScript_last (Or.inr rfl)
            show IsSubstr markerOffScript (if u.action.getD "off".data = "off".data
              then pyPathJoin sd "check_and_off.sh".data
              else (some (if u.action.getD "off".data = "on".data then loggerUpCmd
                else pyPathJoin sd "check_and_off.sh".data) : Option Str).getD defaultUpCmd)
            rw [if_neg ha]
            simp only [Option.getD_some]
            rw [if_neg hb]
            exact substr_pyPathJoin sd "check_and_off.sh".data
      have htab := add_schedule_tableLines hbnl t1 h1
      have h12 : nonBlankNonDomainLines t1 = nonBlankNonDomainLines t2 := by
        rw [nonBlankNonDomainLines, nonBlankNonDomainLines, htab, List.filter_append]
        simp [hbrel]
      rw [h12]
      exact delete_nonBlank t2 hdel

/-- Counterexample to C8 as stated: deleting the schedule record from the
table `# note\n\n0 5 * * 1 /sbin/ip link set ens1 up` also makes the blank
line disappear — `'\n'.join` of the kept pieces merges the blank into the
final newline — so the non-domain lines (`# note` and the blank line) are
not all preserved. -/
theorem C8_counterexample :
    delete_schedule demoHash "# note\n\n0 5 * * 1 /sbin/ip link set ens1 up".data
        (pyId demoHash "0 5 * * 1 /sbin/ip link set ens1 up".data) =
      some "# note\n".data ∧
    nonDomainLines "# note\n".data = ["# note".data] ∧
    nonDomainLines "# note\n\n0 5 * * 1 /sbin/ip link set ens1 up".data =
      ["# note".data, []] :=
  ⟨by decide, by decide, by decide⟩

/-- Witness for C8 on a table holding one unrelated comment line. -/
theorem C8_witness :
    (∀ t1, add_schedule "/opt/iptvctl".data
        { minute := "0".data, hour := "5".data, day := "*".data, month := "*".data,
          weekday := "1".data, action := "on".data, command := some defaultUpCmd,
          enabled := true } "# keep\n".data = some t1 →
      nonDomainLines t1 = nonDomainLines "# keep\n".data) ∧
    (∀ t1, delete_schedule demoHash "# keep\n".data 0 = some t1 →
      nonBlankNonDomainLines t1 = nonBlankNonDomainLines "# keep\n".data) ∧
    (∀ t1, toggle_schedule demoHash "# keep\n".data 0 = some t1 →
      nonDomainLines t1 = nonDomainLines "# keep\n".data) ∧
    (∀ t1, update_schedule demoHash "/opt/iptvctl".data "# keep\n".data 0
        { minute := none, hour := none, day := none, month := none, weekday := none,
          action := none, enabled := none } = some t1 →
      nonBlankNonDomainLines t1 = nonBlankNonDomainLines "# keep\n".data) :=
  C8_frame_preservation demoHash "/opt/iptvctl".data
    { minute := "0".data, hour := "5".data, day := "*".data, month := "*".data,
      weekday := "1".data, action := "on".data, command := some defaultUpCmd, enabled := true }
    { minute := none, hour := none, day := none, month := none, weekday := none,
      action := none, enabled := none }
    "# keep\n".data 0
    (by decide) (by decide) (by decide) (by decide) (by decide) (by decide) (by decide)
    (by decide)
